import Mathlib

/-!
Verification of the source-material lifecycle of the cloudify terraform
plugin, as a shallow embedding of `cloudify_tf/utils.py` and
`cloudify_tf/tasks.py`.

Modelling conventions:
* file contents are byte lists (`Bytes := List Nat`, each value `< 256`
  where the property needs it);
* filesystem paths are POSIX character lists (`Path := List Char`),
  written below as string literals converted with `String.toList` so that
  every definition evaluates inside the kernel;
* Python dictionaries (insertion ordered, last write wins) are modelled as
  association lists with an `upsert` update;
* a zip archive is modelled as the ordered list of its entries
  (arcname, bytes), which is exactly the information `zipfile` reads back
  via `namelist` / `extract`; the byte layout of the container itself is
  external library behaviour and is represented by a concrete
  serialisation function where archive bytes are needed.
-/

namespace CloudifyTf

abbrev Bytes := List Nat

abbrev Path := List Char

/-- `os.path.join(a, b)` restricted to the shapes the plugin produces:
an absolute second component replaces the first, otherwise a single `/`
separator is inserted unless `a` already ends with one. -/
def pjoin (a b : Path) : Path :=
  if a = [] then b
  else if b.head? = some '/' then b
  else if a.getLast? = some '/' then a ++ b
  else a ++ '/' :: b

/-- Split a path on `/` (helper for `ntpath.basename`). -/
def splitSlash (cs : Path) : List Path :=
  match cs with
  | [] => [[]]
  | c :: t =>
    let r := splitSlash t
    if c = '/' then [] :: r
    else
      match r with
      | [] => [[c]]
      | h :: t2 => (c :: h) :: t2

/-- `ntpath.basename` for paths without backslashes or drive letters:
the component after the last `/` (empty when the path ends in `/`). -/
def basename (p : Path) : Path := (splitSlash p).getLastD []

/-- Python substring containment `needle in hay` on strings. -/
def strContains (needle hay : Path) : Bool :=
  match hay with
  | [] => needle.isEmpty
  | _ :: t => needle.isPrefixOf hay || strContains needle t

/-- Lookup in an association list (first binding wins, as in a Python
dict where keys are unique). -/
def alookup {α β : Type} [DecidableEq α] (m : List (α × β)) (k : α) :
    Option β :=
  match m with
  | [] => none
  | (k2, v) :: t => if k2 = k then some v else alookup t k

/-- Python dict assignment `m[k] = v`: replace the binding in place when
the key exists, append it otherwise. -/
def upsert {α β : Type} [DecidableEq α] (m : List (α × β)) (k : α) (v : β) :
    List (α × β) :=
  match m with
  | [] => [(k, v)]
  | (k2, v2) :: t => if k2 = k then (k, v) :: t else (k2, v2) :: upsert t k v

/-- Remove a key (used to model `os.rename` moving a file away). -/
def aerase {α β : Type} [DecidableEq α] (m : List (α × β)) (k : α) :
    List (α × β) :=
  match m with
  | [] => []
  | (k2, v) :: t => if k2 = k then aerase t k else (k2, v) :: aerase t k

/-- Run a sequence of dict assignments left to right. -/
def writeAll {α β : Type} [DecidableEq α] (init : List (α × β))
    (ws : List (α × β)) : List (α × β) :=
  ws.foldl (fun acc kv => upsert acc kv.1 kv.2) init

/-- The value of the last write to `k` in a write sequence, if any. -/
def lastWrite {α β : Type} [DecidableEq α] (ws : List (α × β)) (k : α) :
    Option β :=
  match ws with
  | [] => none
  | (k2, v) :: t =>
    match lastWrite t k with
    | some v2 => some v2
    | none => if k2 = k then some v else none

/-! ### Base64 codec

`_file_to_base64` feeds a file through `base64.encode`, which encodes
successive 57-byte chunks with `binascii.b2a_base64`, each producing a
76-character line terminated by a newline.  `extract_binary_tf_data` and
`get_terraform_state_file` decode the stored text with `base64.decode`,
which decodes line by line, ignoring the newline and using `=` padding
to delimit the final group. -/

/-- The base64 alphabet of `binascii.b2a_base64`. -/
def b64Alphabet : List Char :=
  "ABCDEFGHIJKLMNOPQRSTUVWXYZabcdefghijklmnopqrstuvwxyz0123456789+/".toList

/-- Character for a six-bit value. -/
def sextetChar (s : Nat) : Char := b64Alphabet.getD s 'A'

/-- Six-bit value of an alphabet character. -/
def charSextet (c : Char) : Nat := b64Alphabet.indexOf c

/-- Whether a character belongs to the base64 alphabet (newlines and the
`=` pad do not). -/
def isB64Char (c : Char) : Bool := b64Alphabet.contains c

/-- Core of `binascii.b2a_base64`: three bytes become four alphabet
characters; a trailing group of two or one bytes is padded with `=`. -/
def b64EncodeGroups : Bytes → List Char
  | a :: b :: c :: rest =>
    sextetChar (a / 4) ::
    sextetChar (a % 4 * 16 + b / 16) ::
    sextetChar (b % 16 * 4 + c / 64) ::
    sextetChar (c % 64) :: b64EncodeGroups rest
  | [a, b] =>
    [sextetChar (a / 4), sextetChar (a % 4 * 16 + b / 16),
     sextetChar (b % 16 * 4), '=']
  | [a] => [sextetChar (a / 4), sextetChar (a % 4 * 16), '=', '=']
  | [] => []

/-- Inverse regrouping: four sextets become three bytes; three sextets
(the `xxx=` form) two bytes; two sextets (the `xx==` form) one byte. -/
def b64DecodeSextets : List Nat → Bytes
  | s0 :: s1 :: s2 :: s3 :: rest =>
    (s0 * 4 + s1 / 16) :: (s1 % 16 * 16 + s2 / 4) ::
    (s2 % 4 * 64 + s3) :: b64DecodeSextets rest
  | [s0, s1, s2] => [s0 * 4 + s1 / 16, s1 % 16 * 16 + s2 / 4]
  | [s0, s1] => [s0 * 4 + s1 / 16]
  | _ => []

/-- `base64.decode` on the texts this plugin produces: drop everything
outside the alphabet (newlines, padding), then regroup sextets. -/
def b64Decode (cs : List Char) : Bytes :=
  b64DecodeSextets ((cs.filter isB64Char).map charSextet)

/-- `base64.encode` emits 19 three-byte groups (57 input bytes) per
output line; `k` counts the groups already on the current line.  A final
partial line is still newline-terminated; empty input emits nothing. -/
def encodeLines : Nat → Bytes → List Char
  | k, a :: b :: c :: rest =>
    let g := [sextetChar (a / 4), sextetChar (a % 4 * 16 + b / 16),
      sextetChar (b % 16 * 4 + c / 64), sextetChar (c % 64)]
    if k + 1 = 19 then g ++ '\n' :: encodeLines 0 rest
    else
      match rest with
      | [] => g ++ ['\n']
      | _ => g ++ encodeLines (k + 1) rest
  | _, [a, b] =>
    [sextetChar (a / 4), sextetChar (a % 4 * 16 + b / 16),
     sextetChar (b % 16 * 4), '=', '\n']
  | _, [a] => [sextetChar (a / 4), sextetChar (a % 4 * 16), '=', '=', '\n']
  | _, [] => []

/-- `_file_to_base64` of `utils.py`, as a function of the file's bytes:
the text stored in the `terraform_source` runtime property. -/
def file_to_base64 (content : Bytes) : List Char := encodeLines 0 content

/-! ### Archive codec: directory trees, `_zip_archive`, `_unzip_archive`

A zip archive is its ordered entry list; a directory tree records files
and named subdirectories in listing order (real directory listings have
unique names, which is what `os.walk` yields). -/

abbrev Archive := List (Path × Bytes)

abbrev FileMap := List (Path × Bytes)

mutual
inductive Dir : Type where
  | mk : List (Path × Bytes) → Forest → Dir
inductive Forest : Type where
  | nil : Forest
  | cons : Path → Dir → Forest → Forest
end

/-- Subdirectory names of a listing, in order (the `subdirs` argument
that `os.walk` hands to `exclude_dirs`). -/
def forestNames : Forest → List Path
  | .nil => []
  | .cons n _ rest => n :: forestNames rest

/-- `exclude_file` of `utils.py`: a file is excluded when some truthy
entry of `excluded_files` is an existing file equal to the file's full
path, or an existing directory whose path is a substring (Python `in`)
of the file's full path.  Falsy entries (`None`, empty) are skipped. -/
def exclude_file (isfile isdir : Path → Bool) (dirname filename : Path)
    (excluded_files : List (Option Path)) : Bool :=
  let rel_path := pjoin dirname filename
  excluded_files.any fun f? =>
    match f? with
    | none => false
    | some f =>
      if f = [] then false
      else (isfile f && decide (rel_path = f)) ||
        (isdir f && strContains f rel_path)

/-- The loop of `exclude_dirs`, with `rel_subdirs` fixed: every truthy
excluded entry that is an existing directory and equals one of the
joined paths removes one occurrence of its basename from the current
traversal list (a missing element's `ValueError` is swallowed). -/
def excludeDirsFold (isdir : Path → Bool) (rel_subdirs : List Path)
    (excluded_files : List (Option Path)) (cur : List Path) : List Path :=
  match excluded_files with
  | [] => cur
  | none :: t => excludeDirsFold isdir rel_subdirs t cur
  | some f :: t =>
    excludeDirsFold isdir rel_subdirs t
      (if f = [] then cur
       else if isdir f && decide (f ∈ rel_subdirs) then cur.erase (basename f)
       else cur)

/-- `exclude_dirs` of `utils.py`: `rel_subdirs` is computed once from
the incoming listing before the loop mutates it. -/
def exclude_dirs (isdir : Path → Bool) (dirname : Path)
    (subdirs : List Path) (excluded_files : List (Option Path)) :
    List Path :=
  excludeDirsFold isdir (subdirs.map (fun d => pjoin dirname d))
    excluded_files subdirs

mutual
/-- One `os.walk` visit inside `_zip_archive`: `exclude_dirs` prunes the
subdirectory listing in place, every file surviving `exclude_file` is
written with arcname `file_to_add[len(extracted_source)+1:]`, and the
walk then descends into the surviving subdirectories in listing order. -/
def zipWalkDir (isfile isdir : Path → Bool) (excl : List (Option Path))
    (rootLen : Nat) (dirname : Path) : Dir → Archive
  | .mk files subs =>
    let kept := exclude_dirs isdir dirname (forestNames subs) excl
    (files.filterMap fun fe =>
      if exclude_file isfile isdir dirname fe.1 excl then none
      else some ((pjoin dirname fe.1).drop (rootLen + 1), fe.2)) ++
    zipWalkForest isfile isdir excl rootLen dirname kept subs

def zipWalkForest (isfile isdir : Path → Bool) (excl : List (Option Path))
    (rootLen : Nat) (dirname : Path) (kept : List Path) : Forest → Archive
  | .nil => []
  | .cons n d rest =>
    (if n ∈ kept then
      zipWalkDir isfile isdir excl rootLen (pjoin dirname n) d
    else []) ++
    zipWalkForest isfile isdir excl rootLen dirname kept rest
end

/-- `_zip_archive` of `utils.py`: walk the extracted source top-down and
collect the entries written to the temporary zip, in order. -/
def zip_archive (isfile isdir : Path → Bool) (extracted_source : Path)
    (tree : Dir) (exclude_files : List (Option Path)) : Archive :=
  zipWalkDir isfile isdir exclude_files extracted_source.length
    extracted_source tree

/-- The Python exceptions the modelled fragments can raise. -/
inductive PyErr : Type where
  | typeError : PyErr
deriving DecidableEq

instance {ε α : Type} [DecidableEq ε] [DecidableEq α] :
    DecidableEq (Except ε α) := fun a b =>
  match a, b with
  | .ok x, .ok y =>
    if h : x = y then isTrue (by rw [h]) else isFalse (by intro e; cases e; exact h rfl)
  | .error x, .error y =>
    if h : x = y then isTrue (by rw [h]) else isFalse (by intro e; cases e; exact h rfl)
  | .ok _, .error _ => isFalse (by intro e; cases e)
  | .error _, .ok _ => isFalse (by intro e; cases e)

/-- Trailing-slash normalisation of `target_directory`. -/
def ensureSlash (s : Path) : Path :=
  if s.getLast? = some '/' then s else s ++ ['/']

/-- Trailing-slash normalisation of `source_path`: a falsy (empty)
source path is left alone by the `if source_path:` guard. -/
def sourceSlash (s : Path) : Path := if s = [] then s else ensureSlash s

/-- Effect of `zip_ref.extractall(target)`: write every archive entry at
its own name below the target directory. -/
def extractAllInto (archive : Archive) (target : Path) (fs : FileMap) :
    FileMap :=
  archive.foldl (fun acc e => upsert acc (pjoin target e.1) e.2) fs

/-- One iteration of the `_unzip_archive` loop for an entry `e`: an
entry whose name contains `sp` is extracted and then renamed
(`os.rename`) from `target/p` to `target/basename(p)`; any other entry
triggers `zip_ref.extractall(target)`. -/
def unzipStep (archive : Archive) (target sp : Path) (fs : FileMap)
    (e : Path × Bytes) : FileMap :=
  if strContains sp e.1 then
    let src := pjoin target e.1
    let dst := pjoin target (basename e.1)
    let fs1 := upsert fs src e.2
    if src = dst then fs1
    else
      match alookup fs1 src with
      | some v => upsert (aerase fs1 src) dst v
      | none => fs1
  else
    extractAllInto archive target fs

/-- `_unzip_archive` of `utils.py`, as the files it writes below the
target directory.  With `source_path = None` and a non-empty archive the
loop body evaluates `None in p` on a string and raises `TypeError`
before anything is extracted; an empty archive never enters the loop. -/
def unzip_archive (archive : Archive) (target_directory : Path)
    (source_path : Option Path) : Except PyErr FileMap :=
  let target := ensureSlash target_directory
  match source_path with
  | none =>
    match archive with
    | [] => Except.ok []
    | _ => Except.error PyErr.typeError
  | some sp0 =>
    let sp := sourceSlash sp0
    Except.ok (archive.foldl (unzipStep archive target sp) [])

/-- The bytes of the temporary zip file, as a concrete serialisation of
its entry list (the container byte layout itself is `zipfile` library
behaviour, outside this model). -/
def serializeEntry (e : Path × Bytes) : Bytes :=
  e.1.length :: (e.1.map Char.toNat ++ e.2.length :: e.2)

/-- Byte stream of a whole archive. -/
def serializeArchive (a : Archive) : Bytes :=
  a.foldr (fun e acc => serializeEntry e ++ acc) []

/-! ### State & drift reconciler -/

/-- A plan `change` object: the `actions` list plus the rest of the JSON
payload (`before` / `after` / `after_unknown`), carried opaquely in the
type parameter. -/
structure Change (α : Type) where
  actions : List (List Char)
  payload : α
deriving DecidableEq

/-- One element of `plan_json['resource_changes']`. -/
structure ResourceChange (α : Type) where
  name : Path
  change : Change α
deriving DecidableEq

/-- The plan JSON as consumed by the drift reconciler: a missing
`resource_changes` key (`.get('resource_changes', [])`) is `none`. -/
structure PlanJson (α : Type) where
  resource_changes : Option (List (ResourceChange α))
deriving DecidableEq

/-- `refresh_resources_drifts_properties` of `utils.py`: starting from
`is_drifted = False` and an empty dict, any change whose `actions` list
is not exactly `['no-op']` or `['read']` flips the flag and stores the
full change object under the resource's name; the pair
`(is_drifted, drifts)` is what ends in the runtime properties. -/
def refresh_resources_drifts_properties {α : Type} [DecidableEq α]
    (plan : PlanJson α) : Bool × List (Path × Change α) :=
  (plan.resource_changes.getD []).foldl
    (fun acc rc =>
      if rc.change.actions = ["no-op".toList] ∨
          rc.change.actions = ["read".toList] then acc
      else (true, upsert acc.2 rc.name rc.change))
    (false, [])

/-- The drifting writes of a change list, in order: the pairs the loop
stores into the drifts dict. -/
def driftWrites {α : Type} [DecidableEq α] (l : List (ResourceChange α)) :
    List (Path × Change α) :=
  (l.filter fun rc =>
    !(decide (rc.change.actions = ["no-op".toList] ∨
      rc.change.actions = ["read".toList]))).map
    fun rc => (rc.name, rc.change)

/-- A resource object of the state JSON: its `name` key plus the rest of
the definition, carried opaquely. -/
structure StateResource (α : Type) where
  name : Path
  payload : α
deriving DecidableEq

/-- One element of `state['modules']`: its `resources` mapping (a missing
key is `none`). -/
structure ModuleJson (α : Type) where
  resources : Option (List (Path × StateResource α))
deriving DecidableEq

/-- The state JSON as consumed by the inventory reconciler; missing
`resources` / `modules` keys are `none`. -/
structure StateJson (α : Type) where
  resources : Option (List (StateResource α))
  modules : Option (List (ModuleJson α))
deriving DecidableEq

/-- `refresh_resources_properties` of `utils.py`: flatten the top-level
resources keyed by their `name`, then every nested module's resources
mapping, into one dict (stored under both the `resources` and the legacy
`state` runtime properties). -/
def refresh_resources_properties {α : Type} [DecidableEq α]
    (state : StateJson α) : List (Path × StateResource α) :=
  let r1 := (state.resources.getD []).foldl
    (fun acc r => upsert acc r.name r) []
  (state.modules.getD []).foldl
    (fun acc m => (m.resources.getD []).foldl
      (fun acc2 nv => upsert acc2 nv.1 nv.2) acc) r1

/-- The inventory writes, in program order: top-level resources first,
then every module's resources. -/
def inventoryWrites {α : Type} (state : StateJson α) :
    List (Path × StateResource α) :=
  ((state.resources.getD []).map fun r => (r.name, r)) ++
    (state.modules.getD []).foldr
      (fun m acc => m.resources.getD [] ++ acc) []

/-! ### Process runner (`run_subprocess`) -/

/-- An environment dictionary (ordered, last write wins). -/
abbrev Env := List (Path × Path)

/-- `MASKED_ENV_VARS` of `utils.py`. -/
def MASKED_ENV_VARS : List Path :=
  ["AWS_ACCESS_KEY_ID".toList, "AWS_SECRET_ACCESS_KEY".toList]

/-- Replace the values of redacted keys before logging. -/
def maskEnv : Env → Env
  | [] => []
  | (k, v) :: t =>
    (if k ∈ MASKED_ENV_VARS then (k, "****".toList) else (k, v)) :: maskEnv t

/-- What one `run_subprocess` call exposes: the `env` inside the logged
`additional_args`, the `env` handed to `subprocess.Popen`, and the
ambient `os.environ` after the call. -/
structure RunInvocation where
  printedEnv : Option Env
  passedEnv : Option Env
  osEnvironAfter : Env

/-- The environment handling of `run_subprocess` in `utils.py`:
`additional_args` is deep-copied; when `additional_env` is truthy the
copy's `env` (defaulted to an empty dict) is updated with `os.environ`
and then with `additional_env`; the printed copy masks every key of
`MASKED_ENV_VARS`; the unredacted dict goes to `Popen`; `os.environ`
itself is never written. -/
def run_subprocess (osEnviron : Env) (additional_env : Option Env)
    (additional_args_env : Option Env) : RunInvocation :=
  let passed : Option Env :=
    match additional_env with
    | none => additional_args_env
    | some aenv =>
      some (writeAll (writeAll (additional_args_env.getD []) osEnviron) aenv)
  { printedEnv := passed.map maskEnv
    passedEnv := passed
    osEnvironAfter := osEnviron }

/-! ### Installation (`install` operation and `install_binary`) -/

/-- `os.path.dirname` for the slash-separated paths used here. -/
def dirnameOf (p : Path) : Path :=
  List.intercalate ['/'] ((splitSlash p).dropLast)

/-- Outcome of one `install` run: resulting files, how many times the
executable was downloaded, and the stored runtime property. -/
structure InstallOutcome where
  fs : FileMap
  exeDownloads : Nat
  executablePathProp : Option Path

/-- `install_binary` of `utils.py`: with an installation source, download
`tf.zip` into the installation directory (`download_file`, one download),
unzip it into the executable's directory setting permissions, and remove
the zip.  `fetch` maps a source URL to the archive it serves. -/
def install_binary (fetch : Path → Archive) (fs : FileMap)
    (installation_dir executable_path : Path)
    (installation_source : Option Path) : FileMap × Nat :=
  match installation_source with
  | none => (fs, 0)
  | some src =>
    let installation_zip := pjoin installation_dir "tf.zip".toList
    let fs1 := upsert fs installation_zip (serializeArchive (fetch src))
    let fs2 := extractAllInto (fetch src) (dirnameOf executable_path) fs1
    (aerase fs2 installation_zip, 1)

/-- The per-plugin temporary archive path (`tempfile.NamedTemporaryFile`
inside the installation directory; names are fresh per plugin). -/
def pluginTempPath (installation_dir : Path) (i : Nat) : Path :=
  pjoin installation_dir
    ("tmp".toList ++ List.replicate i 'x' ++ ".zip".toList)

/-- One iteration of the `handle_plugins` loop: download the plugin
archive to a temporary zip under the installation directory, unzip it
into `plugins_dir/name` setting permissions, and remove the temporary
zip. -/
def handlePluginStep (fetch : Path → Archive)
    (plugins_dir installation_dir : Path) (acc : FileMap)
    (ip : Nat × (Path × Path)) : FileMap :=
  let tmp := pluginTempPath installation_dir ip.1
  let acc1 := upsert acc tmp (serializeArchive (fetch ip.2.2))
  let acc2 := extractAllInto (fetch ip.2.2) (pjoin plugins_dir ip.2.1) acc1
  aerase acc2 tmp

/-- `handle_plugins` of `utils.py`: run the loop over every
`name -> url` pair. -/
def handle_plugins (fetch : Path → Archive) (fs : FileMap)
    (plugins : List (Path × Path)) (plugins_dir installation_dir : Path) :
    FileMap :=
  (plugins.enum).foldl (handlePluginStep fetch plugins_dir installation_dir)
    fs

/-- Every path the plugin loop touches (written or removed), for a given
enumerated plugin list. -/
def pluginTouchedOf (fetch : Path → Archive)
    (plugins_dir installation_dir : Path) :
    List (Nat × (Path × Path)) → List Path
  | [] => []
  | ip :: t =>
    pluginTempPath installation_dir ip.1 ::
      (((fetch ip.2.2).map fun e => pjoin (pjoin plugins_dir ip.2.1) e.1)
        ++ pluginTouchedOf fetch plugins_dir installation_dir t)

/-- Every path `handle_plugins` touches (written or removed). -/
def pluginTouchedPaths (fetch : Path → Archive)
    (plugins : List (Path × Path)) (plugins_dir installation_dir : Path) :
    List Path :=
  pluginTouchedOf fetch plugins_dir installation_dir plugins.enum

/-- The `install` operation body of `tasks.py`, after configuration
resolution: skip the download when a file already exists at the resolved
executable path, otherwise run `install_binary`; always store
`executable_path` in the runtime properties and then handle plugins. -/
def install (fetch fetchPlugin : Path → Archive) (fs : FileMap)
    (installation_dir executable_path plugins_dir : Path)
    (installation_source : Path) (plugins : List (Path × Path)) :
    InstallOutcome :=
  if (alookup fs executable_path).isSome then
    { fs := handle_plugins fetchPlugin fs plugins plugins_dir
        installation_dir
      exeDownloads := 0
      executablePathProp := some executable_path }
  else
    let r := install_binary fetch fs installation_dir executable_path
      (some installation_source)
    { fs := handle_plugins fetchPlugin r.1 plugins plugins_dir
        installation_dir
      exeDownloads := r.2
      executablePathProp := some executable_path }

/-! ### Scoped checkout (`_yield_terraform_source`)

`get_terraform_source` and `update_terraform_source` are thin
`contextmanager` wrappers that obtain the bundle material (resolve or
refresh, respectively) and both delegate to `_yield_terraform_source`,
which is modelled here over the decoded entry list of the bundle
archive (the text codec is `file_to_base64` / `b64Decode` above). -/

/-- Find a named subdirectory, defaulting to an empty one. -/
def findDirD (f : Forest) (n : Path) : Dir :=
  match f with
  | .nil => Dir.mk [] Forest.nil
  | .cons m d rest => if m = n then d else findDirD rest n

/-- Replace a named subdirectory (append it when absent). -/
def setDir (f : Forest) (n : Path) (d2 : Dir) : Forest :=
  match f with
  | .nil => Forest.cons n d2 Forest.nil
  | .cons m d rest =>
    if m = n then Forest.cons m d2 rest
    else Forest.cons m d (setDir rest n d2)

/-- Write a file at a component path inside a directory tree, creating
intermediate directories. -/
def insertFile : Dir → List Path → Bytes → Dir
  | d, [], _ => d
  | .mk files subs, [fn], c => .mk (upsert files fn c) subs
  | .mk files subs, dn :: rest, c =>
    .mk files (setDir subs dn (insertFile (findDirD subs dn) rest c))

/-- Relative component path of an extracted file below the
slash-terminated storage root. -/
def relComponents (slashedRoot p : Path) : List Path :=
  splitSlash (p.drop slashedRoot.length)

/-- Runtime-property and storage-directory state visible to one scoped
checkout. -/
structure OpState (ρ : Type) where
  workTree : Dir
  terraformSource : Option (List Char)
  resourceConfigProp : Option ρ

/-- Configuration the context resolves during one operation:
`get_storage_path`, `get_executable_path`, `get_plugins_dir`,
`get_source_path`, `get_resource_config`, the generated backend file of
`handle_backend` (name and rendered contents, when a backend is
declared), and the ambient existence oracles used by the exclusion
helpers at release time. -/
structure ScopedEnv (ρ : Type) where
  moduleRoot : Path
  executablePath : Path
  pluginsDir : Path
  sourcePath : Option Path
  resourceConfig : ρ
  backendFile : Option (Path × Bytes)
  isfile : Path → Bool
  isdir : Path → Bool

/-- Acquire phase of `_yield_terraform_source`: `handle_backend` writes
the generated backend file into the storage directory, then
`extract_binary_tf_data` decodes the bundle and unpacks it there with
`_unzip_archive` (honouring `source_path`), whose `TypeError` would
propagate before the caller's body ever runs. -/
def acquireSource {ρ : Type} (env : ScopedEnv ρ) (st : OpState ρ)
    (material : Archive) : Except PyErr (OpState ρ) :=
  let tree1 :=
    match env.backendFile with
    | none => st.workTree
    | some bf => insertFile st.workTree [bf.1] bf.2
  match unzip_archive material env.moduleRoot env.sourcePath with
  | .error e => .error e
  | .ok written =>
    .ok { st with workTree :=
      (written.foldl
        (fun acc kv => insertFile acc
          (relComponents (ensureSlash env.moduleRoot) kv.1) kv.2)
        tree1) }

/-- Release phase of `_yield_terraform_source` (the `finally` block):
re-zip the storage directory excluding the resolved executable path and
plugins directory, transcode the archive bytes to base64 text, and
overwrite the persisted bundle text and resource-config snapshot. -/
def releaseSource {ρ : Type} (env : ScopedEnv ρ) (st : OpState ρ) :
    OpState ρ :=
  { st with
    terraformSource := some (file_to_base64 (serializeArchive
      (zip_archive env.isfile env.isdir env.moduleRoot st.workTree
        [some env.executablePath, some env.pluginsDir])))
    resourceConfigProp := some env.resourceConfig }

/-- `_yield_terraform_source` under `contextmanager`: acquire, run the
caller's body (an arbitrary state transformer that may also raise), and
run the `finally` block unconditionally before re-raising the body's
exception.  The result pairs the final state with the body's optional
exception. -/
def yield_terraform_source {ρ ε : Type} (env : ScopedEnv ρ)
    (st0 : OpState ρ) (material : Archive)
    (body : OpState ρ → OpState ρ × Option ε) :
    Except PyErr (OpState ρ × Option ε) :=
  match acquireSource env st0 material with
  | .error e => .error e
  | .ok st1 =>
    let r := body st1
    .ok (releaseSource env r.1, r.2)

theorem alookup_upsert_self {α β : Type} [DecidableEq α]
    (m : List (α × β)) (k : α) (v : β) :
    alookup (upsert m k v) k = some v := by
  induction m with
  | nil => simp [upsert, alookup]
  | cons kv t ih =>
    obtain ⟨k2, v2⟩ := kv
    by_cases h : k2 = k
    · simp [upsert, h, alookup]
    · simp [upsert, h, alookup, ih]

theorem alookup_upsert_ne {α β : Type} [DecidableEq α]
    (m : List (α × β)) (k k2 : α) (v : β) (h : k2 ≠ k) :
    alookup (upsert m k v) k2 = alookup m k2 := by
  have h2 : ¬ k = k2 := fun e => h e.symm
  induction m with
  | nil => simp [upsert, alookup, h2]
  | cons kv t ih =>
    obtain ⟨k3, v3⟩ := kv
    by_cases h3 : k3 = k
    · subst h3
      simp [upsert, alookup, h2]
    · simp [upsert, h3, alookup, ih]

theorem alookup_aerase {α β : Type} [DecidableEq α]
    (m : List (α × β)) (k k2 : α) :
    alookup (aerase m k) k2 = if k2 = k then none else alookup m k2 := by
  induction m with
  | nil => simp [aerase, alookup]
  | cons kv t ih =>
    obtain ⟨k3, v3⟩ := kv
    by_cases h3 : k3 = k
    · subst h3
      by_cases h4 : k2 = k3
      · subst h4
        simp [aerase, ih]
      · have h5 : ¬ k3 = k2 := fun e => h4 e.symm
        simp [aerase, ih, h4, alookup, h5]
    · by_cases h4 : k3 = k2
      · subst h4
        simp [aerase, h3, alookup, h3]
      · simp [aerase, h3, alookup, h4, ih]

theorem alookup_writeAll {α β : Type} [DecidableEq α]
    (ws : List (α × β)) (init : List (α × β)) (k : α) :
    alookup (writeAll init ws) k =
      ((lastWrite ws k).orElse fun _ => alookup init k) := by
  induction ws generalizing init with
  | nil => simp [writeAll, lastWrite, Option.orElse]
  | cons kv t ih =>
    obtain ⟨k2, v⟩ := kv
    have step : writeAll init ((k2, v) :: t) = writeAll (upsert init k2 v) t := rfl
    rw [step, ih]
    cases hlast : lastWrite t k with
    | some v2 => simp [lastWrite, hlast, Option.orElse]
    | none =>
      by_cases h : k2 = k
      · subst h
        simp [lastWrite, hlast, alookup_upsert_self, Option.orElse]
      · simp [lastWrite, hlast, h, Option.orElse,
          alookup_upsert_ne _ _ _ _ (fun e => h e.symm)]

/-! ### Base64 lemmas -/

theorem charSextet_sextetChar : ∀ s < 64, charSextet (sextetChar s) = s := by
  decide

theorem isB64Char_sextetChar : ∀ s < 64, isB64Char (sextetChar s) = true := by
  decide

theorem isB64Char_newline : isB64Char '\n' = false := by decide

theorem isB64Char_pad : isB64Char '=' = false := by decide

/-- Newlines only interleave the alphabet characters: filtering the
chunked output recovers the unchunked group encoding. -/
theorem filter_encodeLines (bs : Bytes) :
    ∀ k, (encodeLines k bs).filter isB64Char =
      (b64EncodeGroups bs).filter isB64Char := by
  match bs with
  | a :: b :: c :: rest =>
    intro k
    have ih := filter_encodeLines rest
    by_cases hk : k + 1 = 19
    · simp [encodeLines, b64EncodeGroups, hk, List.filter_cons,
        isB64Char_newline, ih]
    · match rest with
      | [] => simp [encodeLines, b64EncodeGroups, hk, List.filter_cons,
          isB64Char_newline]
      | x :: xs =>
        simp [encodeLines, b64EncodeGroups, hk, List.filter_cons,
          isB64Char_newline, ih]
  | [a, b] =>
    intro k
    simp [encodeLines, b64EncodeGroups, List.filter_cons, isB64Char_newline]
  | [a] =>
    intro k
    simp [encodeLines, b64EncodeGroups, List.filter_cons, isB64Char_newline]
  | [] =>
    intro k
    simp [encodeLines, b64EncodeGroups]

/-- Decoding inverts the group encoding for genuine bytes. -/
theorem b64Decode_encodeGroups : ∀ bs : Bytes, (∀ x ∈ bs, x < 256) →
    b64Decode (b64EncodeGroups bs) = bs := by
  intro bs
  match bs with
  | a :: b :: c :: rest =>
    intro h
    have ha : a < 256 := h a (by simp)
    have hb : b < 256 := h b (by simp)
    have hc : c < 256 := h c (by simp)
    have ih := b64Decode_encodeGroups rest (fun x hx => h x (by simp [hx]))
    have h0 : a / 4 < 64 := by omega
    have h1 : a % 4 * 16 + b / 16 < 64 := by omega
    have h2 : b % 16 * 4 + c / 64 < 64 := by omega
    have h3 : c % 64 < 64 := by omega
    simp only [b64Decode] at ih
    simp only [b64Decode, b64EncodeGroups, List.filter_cons,
      isB64Char_sextetChar _ h0, isB64Char_sextetChar _ h1,
      isB64Char_sextetChar _ h2, isB64Char_sextetChar _ h3,
      if_true, List.map_cons, charSextet_sextetChar _ h0,
      charSextet_sextetChar _ h1, charSextet_sextetChar _ h2,
      charSextet_sextetChar _ h3, b64DecodeSextets, ih,
      List.cons.injEq, and_true]
    omega
  | [a, b] =>
    intro h
    have ha : a < 256 := h a (by simp)
    have hb : b < 256 := h b (by simp)
    have h0 : a / 4 < 64 := by omega
    have h1 : a % 4 * 16 + b / 16 < 64 := by omega
    have h2 : b % 16 * 4 < 64 := by omega
    simp only [b64Decode, b64EncodeGroups, List.filter_cons,
      isB64Char_sextetChar _ h0, isB64Char_sextetChar _ h1,
      isB64Char_sextetChar _ h2, isB64Char_pad, if_true,
      Bool.false_eq_true, if_false, List.filter_nil,
      List.map_cons, List.map_nil, charSextet_sextetChar _ h0,
      charSextet_sextetChar _ h1, charSextet_sextetChar _ h2,
      b64DecodeSextets, List.cons.injEq, and_true]
    omega
  | [a] =>
    intro h
    have ha : a < 256 := h a (by simp)
    have h0 : a / 4 < 64 := by omega
    have h1 : a % 4 * 16 < 64 := by omega
    simp only [b64Decode, b64EncodeGroups, List.filter_cons,
      isB64Char_sextetChar _ h0, isB64Char_sextetChar _ h1,
      isB64Char_pad, if_true, Bool.false_eq_true, if_false,
      List.filter_nil, List.map_cons, List.map_nil,
      charSextet_sextetChar _ h0, charSextet_sextetChar _ h1,
      b64DecodeSextets, List.cons.injEq, and_true]
    omega
  | [] =>
    intro _
    simp [b64Decode, b64EncodeGroups, b64DecodeSextets]

/-- C5: decoding the text of `_file_to_base64` (as `base64.decode` does in
`extract_binary_tf_data`) reproduces the file byte for byte: the
binary-to-text transcode and its decoder are exact inverses. -/
theorem c5_transcode_exact_inverse (content : Bytes)
    (h : ∀ x ∈ content, x < 256) :
    b64Decode (file_to_base64 content) = content := by
  have hf := filter_encodeLines content 0
  simp only [file_to_base64, b64Decode, hf]
  have := b64Decode_encodeGroups content h
  simpa [b64Decode] using this

/-- Witness for C5 at a concrete binary file. -/
theorem c5_transcode_exact_inverse_witness :
    (∀ x ∈ [0, 255, 65, 10, 200], x < 256) ∧
      b64Decode (file_to_base64 [0, 255, 65, 10, 200]) = [0, 255, 65, 10, 200] :=
  ⟨by decide, c5_transcode_exact_inverse [0, 255, 65, 10, 200] (by decide)⟩

/-! ### Path and containment lemmas -/

theorem strContains_of_prefix (needle hay : Path) (h : needle <+: hay) :
    strContains needle hay = true := by
  cases hay with
  | nil =>
    have : needle = [] := List.prefix_nil.mp h
    simp [strContains, this]
  | cons c t =>
    have : needle.isPrefixOf (c :: t) = true := by
      rw [List.isPrefixOf_iff_prefix]
      exact h
    simp [strContains, this]

/-! ### Soundness of the `_zip_archive` walk: every entry comes from a
walked file that passed `exclude_file`. -/

mutual
theorem zipWalkDir_entries (isfile isdir : Path → Bool)
    (excl : List (Option Path)) (rootLen : Nat) :
    ∀ (dirname : Path) (d : Dir) (e : Path × Bytes),
      e ∈ zipWalkDir isfile isdir excl rootLen dirname d →
      ∃ dn fn, e.1 = (pjoin dn fn).drop (rootLen + 1) ∧
        exclude_file isfile isdir dn fn excl = false
  | dirname, .mk files subs, e, h => by
    rw [zipWalkDir] at h
    rcases List.mem_append.mp h with h1 | h2
    · obtain ⟨fe, hfe, hsome⟩ := List.mem_filterMap.mp h1
      by_cases hex : exclude_file isfile isdir dirname fe.1 excl = true
      · simp [hex] at hsome
      · simp [hex] at hsome
        refine ⟨dirname, fe.1, ?_, by simpa using hex⟩
        rw [← hsome]
    · exact zipWalkForest_entries isfile isdir excl rootLen dirname _ subs e h2

theorem zipWalkForest_entries (isfile isdir : Path → Bool)
    (excl : List (Option Path)) (rootLen : Nat) :
    ∀ (dirname : Path) (kept : List Path) (f : Forest) (e : Path × Bytes),
      e ∈ zipWalkForest isfile isdir excl rootLen dirname kept f →
      ∃ dn fn, e.1 = (pjoin dn fn).drop (rootLen + 1) ∧
        exclude_file isfile isdir dn fn excl = false
  | dirname, kept, .nil, e, h => by simp [zipWalkForest] at h
  | dirname, kept, .cons n d rest, e, h => by
    rw [zipWalkForest] at h
    rcases List.mem_append.mp h with h1 | h2
    · by_cases hn : n ∈ kept
      · simp only [if_pos hn] at h1
        exact zipWalkDir_entries isfile isdir excl rootLen (pjoin dirname n) d e h1
      · simp [hn] at h1
    · exact zipWalkForest_entries isfile isdir excl rootLen dirname kept rest e h2
end

/-! ### Exclusion lemmas -/

/-- When `exclude_file` answers `false`, every truthy excluded entry
fails both of its tests against the file's full path. -/
theorem exclude_file_false_elim (isfile isdir : Path → Bool)
    (dn fn : Path) (excl : List (Option Path)) (f : Path)
    (hne : f ≠ []) (hmem : some f ∈ excl)
    (hfalse : exclude_file isfile isdir dn fn excl = false) :
    (isfile f && decide (pjoin dn fn = f)) = false ∧
      (isdir f && strContains f (pjoin dn fn)) = false := by
  rw [exclude_file] at hfalse
  have hall := List.any_eq_false.mp hfalse (some f) hmem
  have hall2 : (isfile f && decide (pjoin dn fn = f) ||
      isdir f && strContains f (pjoin dn fn)) = false := by
    revert hall
    simp [hne]
  exact Bool.or_eq_false_iff.mp hall2

/-- A truthy excluded entry that is an existing file equal to the full
path forces exclusion. -/
theorem exclude_file_of_eq (isfile isdir : Path → Bool)
    (dn fn : Path) (excl : List (Option Path)) (f : Path)
    (hne : f ≠ []) (hmem : some f ∈ excl) (hfile : isfile f = true)
    (heq : pjoin dn fn = f) :
    exclude_file isfile isdir dn fn excl = true := by
  rw [exclude_file]
  refine List.any_eq_true.mpr ⟨some f, hmem, ?_⟩
  simp [hne, hfile, heq]

/-- A truthy excluded entry that is an existing directory above the file
(so a fortiori a substring of its full path) forces exclusion. -/
theorem exclude_file_of_under_dir (isfile isdir : Path → Bool)
    (dn fn : Path) (excl : List (Option Path)) (g : Path)
    (hne : g ≠ []) (hmem : some g ∈ excl) (hdir : isdir g = true)
    (hpre : (g ++ ['/']) <+: pjoin dn fn) :
    exclude_file isfile isdir dn fn excl = true := by
  rw [exclude_file]
  refine List.any_eq_true.mpr ⟨some g, hmem, ?_⟩
  have hg : g <+: pjoin dn fn := (List.prefix_append g ['/']).trans hpre
  simp [hne, hdir, strContains_of_prefix _ _ hg]

/-- A `None` entry in the exclude list is skipped by `exclude_file`. -/
theorem exclude_file_none_cons (isfile isdir : Path → Bool)
    (dn fn : Path) (excl : List (Option Path)) :
    exclude_file isfile isdir dn fn (none :: excl) =
      exclude_file isfile isdir dn fn excl := by
  simp [exclude_file]

/-- A `None` entry in the exclude list is skipped by `exclude_dirs`. -/
theorem exclude_dirs_none_cons (isdir : Path → Bool) (dirname : Path)
    (subdirs : List Path) (excl : List (Option Path)) :
    exclude_dirs isdir dirname subdirs (none :: excl) =
      exclude_dirs isdir dirname subdirs excl := by
  simp [exclude_dirs, excludeDirsFold]

/-- The fold of `exclude_dirs` never re-introduces a name. -/
theorem excludeDirsFold_not_mem (isdir : Path → Bool)
    (rel_subdirs : List Path) (x : Path) :
    ∀ (excl : List (Option Path)) (cur : List Path), x ∉ cur →
      x ∉ excludeDirsFold isdir rel_subdirs excl cur := by
  intro excl
  induction excl with
  | nil => intro cur h; simpa [excludeDirsFold] using h
  | cons a t ih =>
    intro cur h
    match a with
    | none => exact ih cur h
    | some f =>
      rw [excludeDirsFold]
      apply ih
      by_cases hf : f = []
      · simpa [hf] using h
      · by_cases hc : isdir f && decide (f ∈ rel_subdirs)
        · simp only [hf, if_false, hc, if_true]
          intro hmem
          exact h ((List.erase_sublist _ _).mem hmem)
        · simpa [hf, hc] using h

/-- The fold keeps the current listing a sublist of what it started
from. -/
theorem excludeDirsFold_sublist (isdir : Path → Bool)
    (rel_subdirs : List Path) :
    ∀ (excl : List (Option Path)) (cur : List Path),
      (excludeDirsFold isdir rel_subdirs excl cur).Sublist cur := by
  intro excl
  induction excl with
  | nil => intro cur; simp [excludeDirsFold]
  | cons a t ih =>
    intro cur
    match a with
    | none => exact ih cur
    | some f =>
      rw [excludeDirsFold]
      by_cases hf : f = []
      · simpa [hf] using ih cur
      · by_cases hc : isdir f && decide (f ∈ rel_subdirs)
        · simp only [hf, if_false, hc, if_true]
          exact (ih _).trans (List.erase_sublist _ _)
        · simpa [hf, hc] using ih cur

/-- Once a matching excluded directory entry is reached, its basename is
gone from the traversal listing for good (unique listing names). -/
theorem excludeDirsFold_removes (isdir : Path → Bool)
    (rel_subdirs : List Path) (f : Path)
    (hne : f ≠ []) (hdir : isdir f = true) (hrel : f ∈ rel_subdirs) :
    ∀ (excl : List (Option Path)) (cur : List Path), cur.Nodup →
      some f ∈ excl →
      basename f ∉ excludeDirsFold isdir rel_subdirs excl cur := by
  intro excl
  induction excl with
  | nil => intro cur _ h; simp at h
  | cons a t ih =>
    intro cur hnodup hmem
    rcases List.mem_cons.mp hmem with ha | ha
    · subst ha
      rw [excludeDirsFold]
      simp only [hne, if_false, hdir, hrel, decide_eq_true_eq, and_self,
        Bool.true_and, decide_True, if_true]
      apply excludeDirsFold_not_mem
      exact hnodup.not_mem_erase
    · match a with
      | none => exact ih cur hnodup ha
      | some g =>
        rw [excludeDirsFold]
        by_cases hg : g = []
        · exact ih _ (by simpa [hg] using hnodup) ha
        · by_cases hc : isdir g && decide (g ∈ rel_subdirs)
          · simp only [hg, if_false, hc, if_true]
            exact ih _ (hnodup.erase _) ha
          · exact ih _ (by simpa [hg, hc] using hnodup) ha

/-- C4: packing a tree whose exclude list carries the resolved
executable path (an existing file) and the plugins directory (an
existing directory) produces no entry for the executable file and none
for any file under the plugins directory; a file is skipped whenever its
full path equals a truthy file entry of the exclude list or lies under a
truthy excluded directory, an excluded subdirectory is removed from the
walk's traversal listing, and `None` entries in the exclude list are
skipped gracefully by both exclusion helpers. -/
theorem c4_exclusion_correctness (isfile isdir : Path → Bool)
    (excl : List (Option Path)) (exePath pluginsDir root : Path)
    (tree : Dir)
    (hexe : isfile exePath = true) (hdir : isdir pluginsDir = true)
    (hexeMem : some exePath ∈ excl) (hdirMem : some pluginsDir ∈ excl)
    (hexeNe : exePath ≠ []) (hdirNe : pluginsDir ≠ []) :
    (∀ e ∈ zip_archive isfile isdir root tree excl,
      ∃ dn fn, e.1 = (pjoin dn fn).drop (root.length + 1) ∧
        pjoin dn fn ≠ exePath ∧
        ¬ (pluginsDir ++ ['/']) <+: pjoin dn fn) ∧
    (∀ dn fn f, some f ∈ excl → f ≠ [] → isfile f = true →
      pjoin dn fn = f → exclude_file isfile isdir dn fn excl = true) ∧
    (∀ dn fn g, some g ∈ excl → g ≠ [] → isdir g = true →
      (g ++ ['/']) <+: pjoin dn fn →
      exclude_file isfile isdir dn fn excl = true) ∧
    (∀ dn sub subdirs, subdirs.Nodup → sub ∈ subdirs →
      some (pjoin dn sub) ∈ excl → isdir (pjoin dn sub) = true →
      pjoin dn sub ≠ [] → basename (pjoin dn sub) = sub →
      sub ∉ exclude_dirs isdir dn subdirs excl) ∧
    (∀ dn fn, exclude_file isfile isdir dn fn (none :: excl) =
      exclude_file isfile isdir dn fn excl) ∧
    (∀ dn subdirs, exclude_dirs isdir dn subdirs (none :: excl) =
      exclude_dirs isdir dn subdirs excl) := by
  refine ⟨?_, ?_, ?_, ?_, ?_, ?_⟩
  · intro e he
    obtain ⟨dn, fn, harc, hfalse⟩ :=
      zipWalkDir_entries isfile isdir excl root.length root tree e he
    refine ⟨dn, fn, harc, ?_, ?_⟩
    · have h1 := (exclude_file_false_elim isfile isdir dn fn excl exePath
        hexeNe hexeMem hfalse).1
      intro heq
      rw [hexe, heq] at h1
      simp at h1
    · have h2 := (exclude_file_false_elim isfile isdir dn fn excl pluginsDir
        hdirNe hdirMem hfalse).2
      intro hpre
      have hg : pluginsDir <+: pjoin dn fn :=
        (List.prefix_append pluginsDir ['/']).trans hpre
      rw [hdir, strContains_of_prefix _ _ hg] at h2
      simp at h2
  · intro dn fn f hmem hne hfile heq
    exact exclude_file_of_eq isfile isdir dn fn excl f hne hmem hfile heq
  · intro dn fn g hmem hne hdirg hpre
    exact exclude_file_of_under_dir isfile isdir dn fn excl g hne hmem hdirg hpre
  · intro dn sub subdirs hnodup hsub hmem hdirsub hne hbase
    rw [exclude_dirs]
    have hrel : pjoin dn sub ∈ subdirs.map (fun d => pjoin dn d) :=
      List.mem_map.mpr ⟨sub, hsub, rfl⟩
    have := excludeDirsFold_removes isdir (subdirs.map (fun d => pjoin dn d))
      (pjoin dn sub) hne hdirsub hrel excl subdirs hnodup hmem
    rwa [hbase] at this
  · intro dn fn
    exact exclude_file_none_cons isfile isdir dn fn excl
  · intro dn subdirs
    exact exclude_dirs_none_cons isdir dn subdirs excl

/-- Concrete storage layout used by witnesses: a deployment directory
`r` holding a template file, the downloaded executable `r/terraform`,
and the plugins directory `r/.terraform/plugins`. -/
def isfileW : Path → Bool := fun p => p = "r/terraform".toList

/-- Directory-existence oracle of the concrete layout. -/
def isdirW : Path → Bool :=
  fun p => p = "r/.terraform/plugins".toList || p = "r/.terraform".toList

/-- Exclude list of the concrete layout (with a `None` entry, as the
callers can produce). -/
def exclW : List (Option Path) :=
  [none, some "r/terraform".toList, some "r/.terraform/plugins".toList]

/-- Concrete working tree: template and executable at the root, plugin
file below `.terraform/plugins`. -/
def treeW : Dir :=
  Dir.mk [("main.tf".toList, [1]), ("terraform".toList, [9])]
    (Forest.cons ".terraform".toList
      (Dir.mk []
        (Forest.cons "plugins".toList
          (Dir.mk [("p1".toList, [2])] Forest.nil) Forest.nil))
      Forest.nil)

/-- Witness for C4 on the concrete layout. -/
theorem c4_exclusion_correctness_witness :
    (isfileW "r/terraform".toList = true ∧
     isdirW "r/.terraform/plugins".toList = true ∧
     some "r/terraform".toList ∈ exclW ∧
     some "r/.terraform/plugins".toList ∈ exclW ∧
     "r/terraform".toList ≠ ([] : Path) ∧
     "r/.terraform/plugins".toList ≠ ([] : Path)) ∧
    ((∀ e ∈ zip_archive isfileW isdirW "r".toList treeW exclW,
      ∃ dn fn, e.1 = (pjoin dn fn).drop ("r".toList.length + 1) ∧
        pjoin dn fn ≠ "r/terraform".toList ∧
        ¬ ("r/.terraform/plugins".toList ++ ['/']) <+: pjoin dn fn) ∧
    (∀ dn fn f, some f ∈ exclW → f ≠ [] → isfileW f = true →
      pjoin dn fn = f → exclude_file isfileW isdirW dn fn exclW = true) ∧
    (∀ dn fn g, some g ∈ exclW → g ≠ [] → isdirW g = true →
      (g ++ ['/']) <+: pjoin dn fn →
      exclude_file isfileW isdirW dn fn exclW = true) ∧
    (∀ dn sub subdirs, subdirs.Nodup → sub ∈ subdirs →
      some (pjoin dn sub) ∈ exclW → isdirW (pjoin dn sub) = true →
      pjoin dn sub ≠ [] → basename (pjoin dn sub) = sub →
      sub ∉ exclude_dirs isdirW dn subdirs exclW) ∧
    (∀ dn fn, exclude_file isfileW isdirW dn fn (none :: exclW) =
      exclude_file isfileW isdirW dn fn exclW) ∧
    (∀ dn subdirs, exclude_dirs isdirW dn subdirs (none :: exclW) =
      exclude_dirs isdirW dn subdirs exclW)) :=
  ⟨⟨by decide, by decide, by decide, by decide, by decide, by decide⟩,
    c4_exclusion_correctness isfileW isdirW exclW
      "r/terraform".toList "r/.terraform/plugins".toList "r".toList treeW
      (by decide) (by decide) (by decide) (by decide) (by decide) (by decide)⟩

/-- An exclude entry that exists neither as file nor directory never
matches in `exclude_file`. -/
theorem exclude_file_dead_entry (isfile isdir : Path → Bool)
    (dn fn f : Path) (hf : isfile f = false) (hd : isdir f = false)
    (l1 l2 : List (Option Path)) :
    exclude_file isfile isdir dn fn (l1 ++ some f :: l2) =
      exclude_file isfile isdir dn fn (l1 ++ l2) := by
  simp [exclude_file, List.any_append, List.any_cons, hf, hd]

/-- The `exclude_dirs` fold ignores such an entry as well. -/
theorem excludeDirsFold_dead_entry (isdir : Path → Bool)
    (rs : List Path) (f : Path) (hd : isdir f = false) :
    ∀ (l1 l2 : List (Option Path)) (cur : List Path),
      excludeDirsFold isdir rs (l1 ++ some f :: l2) cur =
        excludeDirsFold isdir rs (l1 ++ l2) cur := by
  intro l1
  induction l1 with
  | nil =>
    intro l2 cur
    rw [List.nil_append, List.nil_append, excludeDirsFold]
    simp [hd]
  | cons a t ih =>
    intro l2 cur
    match a with
    | none =>
      rw [List.cons_append, List.cons_append, excludeDirsFold,
        excludeDirsFold]
      exact ih l2 cur
    | some g =>
      rw [List.cons_append, List.cons_append, excludeDirsFold,
        excludeDirsFold]
      exact ih l2 _

/-- `exclude_dirs` ignores a dead entry. -/
theorem exclude_dirs_dead_entry (isdir : Path → Bool)
    (dn : Path) (subdirs : List Path) (f : Path) (hd : isdir f = false)
    (l1 l2 : List (Option Path)) :
    exclude_dirs isdir dn subdirs (l1 ++ some f :: l2) =
      exclude_dirs isdir dn subdirs (l1 ++ l2) := by
  rw [exclude_dirs, exclude_dirs, excludeDirsFold_dead_entry _ _ _ hd]

/-! ### The walk only depends on the two exclusion predicates -/

mutual
theorem zipWalkDir_congr (isfile isdir : Path → Bool)
    (exclA exclB : List (Option Path))
    (hfile : ∀ dn fn, exclude_file isfile isdir dn fn exclA =
      exclude_file isfile isdir dn fn exclB)
    (hdirs : ∀ dn sd, exclude_dirs isdir dn sd exclA =
      exclude_dirs isdir dn sd exclB)
    (rootLen : Nat) :
    ∀ (dirname : Path) (d : Dir),
      zipWalkDir isfile isdir exclA rootLen dirname d =
        zipWalkDir isfile isdir exclB rootLen dirname d
  | dirname, .mk files subs => by
    simp only [zipWalkDir]
    rw [hdirs]
    congr 1
    · have hfun :
          (fun fe : Path × Bytes =>
            if exclude_file isfile isdir dirname fe.1 exclA then none
            else some ((pjoin dirname fe.1).drop (rootLen + 1), fe.2)) =
          (fun fe : Path × Bytes =>
            if exclude_file isfile isdir dirname fe.1 exclB then none
            else some ((pjoin dirname fe.1).drop (rootLen + 1), fe.2)) := by
        funext fe
        rw [hfile]
      rw [hfun]
    · exact zipWalkForest_congr isfile isdir exclA exclB hfile hdirs rootLen
        dirname _ subs

theorem zipWalkForest_congr (isfile isdir : Path → Bool)
    (exclA exclB : List (Option Path))
    (hfile : ∀ dn fn, exclude_file isfile isdir dn fn exclA =
      exclude_file isfile isdir dn fn exclB)
    (hdirs : ∀ dn sd, exclude_dirs isdir dn sd exclA =
      exclude_dirs isdir dn sd exclB)
    (rootLen : Nat) :
    ∀ (dirname : Path) (kept : List Path) (fo : Forest),
      zipWalkForest isfile isdir exclA rootLen dirname kept fo =
        zipWalkForest isfile isdir exclB rootLen dirname kept fo
  | dirname, kept, .nil => by
    rw [zipWalkForest, zipWalkForest]
  | dirname, kept, .cons n d rest => by
    rw [zipWalkForest, zipWalkForest]
    congr 1
    · by_cases hn : n ∈ kept
      · simp only [if_pos hn]
        exact zipWalkDir_congr isfile isdir exclA exclB hfile hdirs rootLen
          (pjoin dirname n) d
      · simp [hn]
    · exact zipWalkForest_congr isfile isdir exclA exclB hfile hdirs rootLen
        dirname kept rest
end

/-- C10: an exclude-list entry that at packaging time is neither an
existing file nor an existing directory excludes nothing: both exclusion
helpers behave exactly as if the entry were absent, and the packed
archive is unchanged, so the corresponding files are still written into
the archive. -/
theorem c10_dead_exclude_entry (isfile isdir : Path → Bool) (f : Path)
    (hf : isfile f = false) (hd : isdir f = false) :
    (∀ dn fn l1 l2, exclude_file isfile isdir dn fn (l1 ++ some f :: l2) =
      exclude_file isfile isdir dn fn (l1 ++ l2)) ∧
    (∀ dn subdirs l1 l2,
      exclude_dirs isdir dn subdirs (l1 ++ some f :: l2) =
        exclude_dirs isdir dn subdirs (l1 ++ l2)) ∧
    (∀ root tree l1 l2,
      zip_archive isfile isdir root tree (l1 ++ some f :: l2) =
        zip_archive isfile isdir root tree (l1 ++ l2)) := by
  refine ⟨?_, ?_, ?_⟩
  · intro dn fn l1 l2
    exact exclude_file_dead_entry isfile isdir dn fn f hf hd l1 l2
  · intro dn subdirs l1 l2
    exact exclude_dirs_dead_entry isdir dn subdirs f hd l1 l2
  · intro root tree l1 l2
    rw [zip_archive, zip_archive]
    exact zipWalkDir_congr isfile isdir (l1 ++ some f :: l2) (l1 ++ l2)
      (fun dn fn => exclude_file_dead_entry isfile isdir dn fn f hf hd l1 l2)
      (fun dn sd => exclude_dirs_dead_entry isdir dn sd f hd l1 l2)
      root.length root tree

/-- Witness for C10: a ghost path in the exclude list of the concrete
layout leaves the packed archive untouched. -/
theorem c10_dead_exclude_entry_witness :
    (isfileW "r/ghost".toList = false ∧ isdirW "r/ghost".toList = false) ∧
    ((∀ dn fn l1 l2,
      exclude_file isfileW isdirW dn fn (l1 ++ some "r/ghost".toList :: l2) =
        exclude_file isfileW isdirW dn fn (l1 ++ l2)) ∧
    (∀ dn subdirs l1 l2,
      exclude_dirs isdirW dn subdirs (l1 ++ some "r/ghost".toList :: l2) =
        exclude_dirs isdirW dn subdirs (l1 ++ l2)) ∧
    (∀ root tree l1 l2,
      zip_archive isfileW isdirW root tree (l1 ++ some "r/ghost".toList :: l2) =
        zip_archive isfileW isdirW root tree (l1 ++ l2))) :=
  ⟨⟨by decide, by decide⟩,
    c10_dead_exclude_entry isfileW isdirW "r/ghost".toList
      (by decide) (by decide)⟩

/-- C3 (the code evaluated at the failing input): packing a one-file
tree with an empty exclude list produces the expected single-entry
archive, but unpacking it with no rebase subpath (`source_path = None`,
the callers' default) raises `TypeError` at `source_path in p` instead
of reproducing the file. -/
theorem c3_roundtrip_failing_input :
    zip_archive (fun _ => false) (fun _ => false) "r".toList
      (Dir.mk [("a.tf".toList, [1, 2, 3])] Forest.nil) [] =
      [("a.tf".toList, [1, 2, 3])] ∧
    unzip_archive [("a.tf".toList, [1, 2, 3])] "t".toList none =
      Except.error PyErr.typeError :=
  ⟨by decide, by decide⟩

/-! ### Lemmas about `_unzip_archive` -/

theorem ensureSlash_getLast (s : Path) :
    (ensureSlash s).getLast? = some '/' := by
  rw [ensureSlash]
  by_cases h : s.getLast? = some '/'
  · simp [h]
  · simp [h, List.getLast?_concat]

theorem splitSlash_no_slash (cs : Path) :
    ∀ comp ∈ splitSlash cs, '/' ∉ comp := by
  induction cs with
  | nil =>
    intro comp h
    simp [splitSlash] at h
    simp [h]
  | cons c t ih =>
    intro comp h
    by_cases hc : c = '/'
    · rw [splitSlash] at h
      simp only [hc, if_true] at h
      rcases List.mem_cons.mp h with h1 | h1
      · simp [h1]
      · exact ih comp h1
    · rw [splitSlash] at h
      simp only [hc, if_false] at h
      cases hsplit : splitSlash t with
      | nil =>
        simp [hsplit] at h
        subst h
        intro hm
        rcases List.mem_cons.mp hm with h3 | h3
        · exact hc h3.symm
        · simp at h3
      | cons h2 t2 =>
        simp only [hsplit] at h
        rcases List.mem_cons.mp h with h1 | h1
        · subst h1
          intro hmem
          rcases List.mem_cons.mp hmem with h3 | h3
          · exact hc h3.symm
          · exact ih h2 (by rw [hsplit]; exact List.mem_cons_self _ _) h3
        · exact ih comp (by rw [hsplit]; exact List.mem_cons_of_mem _ h1)

theorem getLastD_mem_or {α : Type} :
    ∀ (l : List α) (d : α), l.getLastD d ∈ l ∨ l.getLastD d = d
  | [], _ => Or.inr rfl
  | a :: t, d => by
    rw [List.getLastD_cons]
    rcases getLastD_mem_or t a with h | h
    · exact Or.inl (List.mem_cons_of_mem _ h)
    · rw [h]
      exact Or.inl (List.mem_cons_self _ _)

theorem basename_no_slash (p : Path) : '/' ∉ basename p := by
  rw [basename]
  rcases getLastD_mem_or (splitSlash p) [] with h | h
  · exact splitSlash_no_slash p _ h
  · rw [h]
    simp

theorem basename_head_ne (p : Path) : (basename p).head? ≠ some '/' := by
  intro h
  have := basename_no_slash p
  cases hb : basename p with
  | nil => rw [hb] at h; simp at h
  | cons c t =>
    rw [hb] at h
    simp at h
    rw [hb] at this
    simp [h] at this

theorem pjoin_slash_eq_append (a x : Path) (ha : a.getLast? = some '/')
    (hx : x.head? ≠ some '/') : pjoin a x = a ++ x := by
  have hane : a ≠ [] := by
    intro e
    rw [e] at ha
    simp at ha
  rw [pjoin]
  simp [hane, hx, ha]

theorem pjoin_slash_inj (a x y : Path) (ha : a.getLast? = some '/')
    (hx : x.head? ≠ some '/') (hy : y.head? ≠ some '/')
    (h : pjoin a x = pjoin a y) : x = y := by
  rw [pjoin_slash_eq_append a x ha hx, pjoin_slash_eq_append a y ha hy] at h
  exact List.append_cancel_left h

theorem lastWrite_eq_none {α β : Type} [DecidableEq α]
    (ws : List (α × β)) (k : α) (h : k ∉ ws.map Prod.fst) :
    lastWrite ws k = none := by
  induction ws with
  | nil => rw [lastWrite]
  | cons kv t ih =>
    obtain ⟨k2, v⟩ := kv
    have hk2 : k2 ≠ k := by
      intro e
      exact h (by simp [e])
    rw [lastWrite, ih (by intro hm; exact h (by simp [hm]))]
    simp [hk2]

theorem lastWrite_of_mem_nodup {α β : Type} [DecidableEq α]
    (ws : List (α × β)) (k : α) (v : β) (hmem : (k, v) ∈ ws)
    (hnodup : (ws.map Prod.fst).Nodup) : lastWrite ws k = some v := by
  induction ws with
  | nil => simp at hmem
  | cons kv t ih =>
    obtain ⟨k2, v2⟩ := kv
    rw [List.map_cons] at hnodup
    have hnd := List.nodup_cons.mp hnodup
    rcases List.mem_cons.mp hmem with h1 | h1
    · injection h1 with e1 e2
      subst e1
      subst e2
      rw [lastWrite, lastWrite_eq_none t k hnd.1]
      simp
    · rw [lastWrite, ih h1 hnd.2]

theorem lastWrite_isSome_of_mem {α β : Type} [DecidableEq α]
    (ws : List (α × β)) (k : α) (h : k ∈ ws.map Prod.fst) :
    (lastWrite ws k).isSome = true := by
  induction ws with
  | nil => simp at h
  | cons kv t ih =>
    obtain ⟨k2, v2⟩ := kv
    rw [lastWrite]
    cases hlast : lastWrite t k with
    | some v3 => simp
    | none =>
      by_cases hk : k2 = k
      · simp [hk]
      · rw [List.map_cons] at h
        have hmemt : k ∈ t.map Prod.fst := by
          rcases List.mem_cons.mp h with h1 | h1
          · exact absurd h1.symm hk
          · exact h1
        have := ih hmemt
        rw [hlast] at this
        simp at this

/-- A matching loop iteration leaves the processed entry's bytes at
`target/basename(entry)`. -/
theorem unzipStep_self (archiveFull : Archive) (t sp : Path)
    (fs : FileMap) (a : Path × Bytes)
    (hma : strContains sp a.1 = true) :
    alookup (unzipStep archiveFull t sp fs a) (pjoin t (basename a.1)) =
      some a.2 := by
  rw [unzipStep]
  simp only [hma, if_true]
  by_cases hsd : pjoin t a.1 = pjoin t (basename a.1)
  · simp only [hsd, if_true]
    exact alookup_upsert_self fs (pjoin t (basename a.1)) a.2
  · simp only [hsd, if_false,
      alookup_upsert_self fs (pjoin t a.1) a.2]
    exact alookup_upsert_self _ (pjoin t (basename a.1)) a.2

/-- A matching loop iteration does not disturb the binding at
`target/k` when `k` is neither the entry's basename nor (when the
rename actually moves the file) the entry's full name. -/
theorem unzipStep_preserves (archiveFull : Archive) (t sp : Path)
    (ht : t.getLast? = some '/') (fs : FileMap) (a : Path × Bytes)
    (hma : strContains sp a.1 = true) (hha : a.1.head? ≠ some '/')
    (k : Path) (hk : k.head? ≠ some '/')
    (hkb : k ≠ basename a.1) (hkn : a.1 ≠ basename a.1 → k ≠ a.1) :
    alookup (unzipStep archiveFull t sp fs a) (pjoin t k) =
      alookup fs (pjoin t k) := by
  have hkdst : pjoin t k ≠ pjoin t (basename a.1) := by
    intro e
    exact hkb (pjoin_slash_inj t k (basename a.1) ht hk (basename_head_ne a.1) e)
  rw [unzipStep]
  simp only [hma, if_true]
  by_cases hsd : pjoin t a.1 = pjoin t (basename a.1)
  · simp only [hsd, if_true]
    exact alookup_upsert_ne fs (pjoin t (basename a.1)) (pjoin t k) a.2 hkdst
  · have hab : a.1 ≠ basename a.1 := by
      intro e
      exact hsd (by rw [← e])
    have hksrc : pjoin t k ≠ pjoin t a.1 := by
      intro e
      exact (hkn hab) (pjoin_slash_inj t k a.1 ht hk hha e)
    simp only [hsd, if_false, alookup_upsert_self fs (pjoin t a.1) a.2]
    rw [alookup_upsert_ne _ _ _ _ hkdst, alookup_aerase, if_neg hksrc,
      alookup_upsert_ne _ _ _ _ hksrc]

/-- Folding the matching loop over a clean archive puts every entry at
`target/basename(entry)`. -/
theorem unzip_match_fold (archiveFull : Archive) (t sp : Path)
    (ht : t.getLast? = some '/') :
    ∀ (l : Archive) (fs0 : FileMap),
      (∀ e ∈ l, strContains sp e.1 = true) →
      (∀ e ∈ l, e.1.head? ≠ some '/') →
      ((l.map fun e => basename e.1).Nodup) →
      (∀ e ∈ l, ∀ e2 ∈ l, e.1 ≠ basename e.1 → e.1 ≠ basename e2.1) →
      ∀ e ∈ l, alookup (l.foldl (unzipStep archiveFull t sp) fs0)
        (pjoin t (basename e.1)) = some e.2 := by
  intro l
  induction l using List.reverseRecOn with
  | nil =>
    intro fs0 _ _ _ _ e he
    simp at he
  | append_singleton l0 a ih =>
    intro fs0 h1 h2 h3 h4 e he
    rw [List.foldl_append, List.foldl_cons, List.foldl_nil]
    have hma : strContains sp a.1 = true := h1 a (by simp)
    have hha : a.1.head? ≠ some '/' := h2 a (by simp)
    rw [List.map_append, List.map_cons, List.map_nil] at h3
    have hnd := List.nodup_append.mp h3
    rcases List.mem_append.mp he with hel | hea
    · -- an earlier entry: the last step does not disturb it
      have hkb : basename e.1 ≠ basename a.1 := by
        intro hcontra
        exact hnd.2.2 (List.mem_map_of_mem _ hel) (by simp [hcontra])
      have hkn : a.1 ≠ basename a.1 → basename e.1 ≠ a.1 := by
        intro hne hcontra
        exact (h4 a (by simp) e (by simp [hel]) hne) hcontra.symm
      rw [unzipStep_preserves archiveFull t sp ht _ a hma hha
        (basename e.1) (basename_head_ne e.1) hkb hkn]
      exact ih fs0 (fun x hx => h1 x (by simp [hx]))
        (fun x hx => h2 x (by simp [hx])) hnd.1
        (fun x hx y hy hne => h4 x (by simp [hx]) y (by simp [hy]) hne)
        e hel
    · -- the last entry itself
      have hae : e = a := by simpa using hea
      subst hae
      exact unzipStep_self archiveFull t sp _ e hma

/-- Folding the loop over an archive in which no entry matches performs
one `extractall` per entry; with unique entry names every entry ends at
`target/name`. -/
theorem unzip_nomatch_fold (archiveFull : Archive) (t sp : Path)
    (ht : t.getLast? = some '/')
    (hnm : ∀ e ∈ archiveFull, strContains sp e.1 = false)
    (hheads : ∀ e ∈ archiveFull, e.1.head? ≠ some '/')
    (hnodup : (archiveFull.map Prod.fst).Nodup)
    (hne : archiveFull ≠ []) :
    ∀ e ∈ archiveFull,
      alookup (archiveFull.foldl (unzipStep archiveFull t sp) [])
        (pjoin t e.1) = some e.2 := by
  intro e he
  rcases List.eq_nil_or_concat archiveFull with hnil | ⟨L, b, hsplit⟩
  · exact absurd hnil hne
  · subst hsplit
    simp only [List.concat_eq_append] at he hnm hheads hnodup ⊢
    have hb : b ∈ L ++ [b] := by simp
    rw [List.foldl_append, List.foldl_cons, List.foldl_nil, unzipStep]
    rw [hnm b hb]
    simp only [Bool.false_eq_true, if_false]
    rw [extractAllInto]
    have hwrites :
        ((L ++ [b]).foldl
          (fun acc e2 => upsert acc (pjoin t e2.1) e2.2)
          (L.foldl (unzipStep (L ++ [b]) t sp) [])) =
        writeAll (L.foldl (unzipStep (L ++ [b]) t sp) [])
          ((L ++ [b]).map fun e2 => (pjoin t e2.1, e2.2)) := by
      rw [writeAll, List.foldl_map]
    rw [hwrites, alookup_writeAll]
    have hmem : (pjoin t e.1, e.2) ∈
        (L ++ [b]).map fun e2 => (pjoin t e2.1, e2.2) :=
      List.mem_map_of_mem _ he
    have hkeys : (((L ++ [b]).map fun e2 => (pjoin t e2.1, e2.2)).map
        Prod.fst).Nodup := by
      rw [List.map_map]
      rw [show (Prod.fst ∘ fun e2 : Path × Bytes => (pjoin t e2.1, e2.2)) =
        ((fun n => pjoin t n) ∘ Prod.fst) from rfl]
      rw [← List.map_map]
      refine List.Nodup.map_on ?_ hnodup
      intro x hx y hy hxy
      obtain ⟨ex, hex, hex2⟩ := List.mem_map.mp hx
      obtain ⟨ey, hey, hey2⟩ := List.mem_map.mp hy
      subst hex2
      subst hey2
      exact pjoin_slash_inj t ex.1 ey.1 ht (hheads ex hex) (hheads ey hey) hxy
    rw [lastWrite_of_mem_nodup _ _ _ hmem hkeys]
    simp [Option.orElse]

/-- C2 counterexample: at the archive `[sub/a/b.txt]` with rebase
subpath `sub`, the matching entry is renamed to its basename and lands
at `t/b.txt`, not at the prefix-stripped `t/a/b.txt` the claim
describes; and with the subpath absent (`None`) the call raises
`TypeError` instead of extracting the archive verbatim. -/
theorem c2_unzip_counterexample :
    unzip_archive [("sub/a/b.txt".toList, [7])] "t".toList
      (some "sub".toList) = Except.ok [("t/b.txt".toList, [7])] ∧
    alookup [("t/b.txt".toList, ([7] : Bytes))] "t/a/b.txt".toList = none ∧
    unzip_archive [("sub/a/b.txt".toList, [7])] "t".toList none =
      Except.error PyErr.typeError :=
  ⟨by decide, by decide, by decide⟩

/-- C2 (amended): with `rebase_subpath` absent (`None`), `_unzip_archive`
raises `TypeError` as soon as the archive has an entry, and only an
empty archive extracts nothing and returns the target directory; with a
rebase subpath given, an entry whose name contains the slash-terminated
subpath as a substring is extracted and then renamed to its basename at
the target directory root (when the entries' basenames are distinct and
do not collide with other entries' full names, every entry's bytes end
at `target/basename(entry)`), while each entry that does not contain the
subpath causes the whole archive to be extracted verbatim, so when no
entry matches, every entry's bytes end at `target/entry`. -/
theorem c2_unzip_amended :
    (∀ (archive : Archive) (target : Path), archive ≠ [] →
      unzip_archive archive target none = Except.error PyErr.typeError) ∧
    (∀ target : Path, unzip_archive [] target none = Except.ok []) ∧
    (∀ (archive : Archive) (target s : Path),
      (∀ e ∈ archive, strContains (sourceSlash s) e.1 = true) →
      (∀ e ∈ archive, e.1.head? ≠ some '/') →
      ((archive.map fun e => basename e.1).Nodup) →
      (∀ e ∈ archive, ∀ e2 ∈ archive,
        e.1 ≠ basename e.1 → e.1 ≠ basename e2.1) →
      ∃ fs, unzip_archive archive target (some s) = Except.ok fs ∧
        ∀ e ∈ archive,
          alookup fs (pjoin (ensureSlash target) (basename e.1)) =
            some e.2) ∧
    (∀ (archive : Archive) (target s : Path), archive ≠ [] →
      (∀ e ∈ archive, strContains (sourceSlash s) e.1 = false) →
      (∀ e ∈ archive, e.1.head? ≠ some '/') →
      ((archive.map Prod.fst).Nodup) →
      ∃ fs, unzip_archive archive target (some s) = Except.ok fs ∧
        ∀ e ∈ archive,
          alookup fs (pjoin (ensureSlash target) e.1) = some e.2) := by
  refine ⟨?_, ?_, ?_, ?_⟩
  · intro archive target hne
    cases archive with
    | nil => exact absurd rfl hne
    | cons e t => rfl
  · intro target
    rfl
  · intro archive target s hmatch hheads hnodup hclean
    refine ⟨archive.foldl
      (unzipStep archive (ensureSlash target) (sourceSlash s)) [], rfl, ?_⟩
    exact unzip_match_fold archive (ensureSlash target) (sourceSlash s)
      (ensureSlash_getLast target) archive [] hmatch hheads hnodup hclean
  · intro archive target s hne hnomatch hheads hnodup
    refine ⟨archive.foldl
      (unzipStep archive (ensureSlash target) (sourceSlash s)) [], rfl, ?_⟩
    exact unzip_nomatch_fold archive (ensureSlash target) (sourceSlash s)
      (ensureSlash_getLast target) hnomatch hheads hnodup hne

/-- Witness for the amended C2 at concrete archives: the `None` crash,
the empty-archive case, a matching rebase, and a non-matching rebase. -/
theorem c2_unzip_amended_witness :
    (([("a.tf".toList, ([1] : Bytes))] : Archive) ≠ [] ∧
      unzip_archive [("a.tf".toList, [1])] "t".toList none =
        Except.error PyErr.typeError) ∧
    unzip_archive [] "t".toList none = Except.ok [] ∧
    (∃ fs, unzip_archive [("sub/a/b.txt".toList, [7])] "t".toList
        (some "sub".toList) = Except.ok fs ∧
      ∀ e ∈ ([("sub/a/b.txt".toList, ([7] : Bytes))] : Archive),
        alookup fs (pjoin (ensureSlash "t".toList) (basename e.1)) =
          some e.2) ∧
    (∃ fs, unzip_archive [("y.tf".toList, [2])] "t".toList
        (some "zz".toList) = Except.ok fs ∧
      ∀ e ∈ ([("y.tf".toList, ([2] : Bytes))] : Archive),
        alookup fs (pjoin (ensureSlash "t".toList) e.1) = some e.2) :=
  ⟨⟨by decide,
    c2_unzip_amended.1 [("a.tf".toList, [1])] "t".toList (by decide)⟩,
    c2_unzip_amended.2.1 "t".toList,
    c2_unzip_amended.2.2.1 [("sub/a/b.txt".toList, [7])] "t".toList
      "sub".toList (by decide) (by decide) (by decide) (by decide),
    c2_unzip_amended.2.2.2 [("y.tf".toList, [2])] "t".toList "zz".toList
      (by decide) (by decide) (by decide) (by decide)⟩

/-! ### Drift and inventory lemmas -/

theorem writeAll_append {α β : Type} [DecidableEq α]
    (init : List (α × β)) (ws1 ws2 : List (α × β)) :
    writeAll init (ws1 ++ ws2) = writeAll (writeAll init ws1) ws2 := by
  rw [writeAll, writeAll, writeAll, List.foldl_append]

/-- Folding one write into an accumulator first. -/
theorem writeAll_cons {α β : Type} [DecidableEq α]
    (init : List (α × β)) (w : α × β) (ws : List (α × β)) :
    writeAll init (w :: ws) = writeAll (upsert init w.1 w.2) ws := rfl

/-- The drift loop in closed form: the flag is an `any` over the change
list and the dict is the fold of the drifting writes. -/
theorem drift_fold {α : Type} [DecidableEq α] :
    ∀ (l : List (ResourceChange α)) (b : Bool)
      (ds : List (Path × Change α)),
      l.foldl (fun acc rc =>
        if rc.change.actions = ["no-op".toList] ∨
            rc.change.actions = ["read".toList] then acc
        else (true, upsert acc.2 rc.name rc.change)) (b, ds) =
      (b || l.any (fun rc =>
        !(decide (rc.change.actions = ["no-op".toList] ∨
          rc.change.actions = ["read".toList]))),
       writeAll ds (driftWrites l)) := by
  intro l
  induction l with
  | nil =>
    intro b ds
    simp [driftWrites, writeAll]
  | cons rc t ih =>
    intro b ds
    rw [List.foldl_cons]
    by_cases h : rc.change.actions = ["no-op".toList] ∨
        rc.change.actions = ["read".toList]
    · rw [if_pos h, ih]
      have hd : (!(decide (rc.change.actions = ["no-op".toList] ∨
          rc.change.actions = ["read".toList]))) = false := by
        rw [decide_eq_true h]
        rfl
      have hw : driftWrites (rc :: t) = driftWrites t := by
        rw [driftWrites, driftWrites, List.filter_cons, hd]
        simp
      rw [hw, List.any_cons, hd, Bool.false_or]
    · rw [if_neg h, ih]
      have hd : (!(decide (rc.change.actions = ["no-op".toList] ∨
          rc.change.actions = ["read".toList]))) = true := by
        rw [decide_eq_false h]
        rfl
      have hw : driftWrites (rc :: t) =
          (rc.name, rc.change) :: driftWrites t := by
        rw [driftWrites, driftWrites, List.filter_cons, hd]
        simp
      rw [hw, writeAll_cons, List.any_cons, hd]
      simp

/-- C6: drift projection sets `is_drifted = False` and an empty drifts
mapping when every change's actions list is exactly `['no-op']` or
exactly `['read']` (including when there are no resource changes or the
key is missing); any other change sets `is_drifted = True` and records
the full change object keyed by the resource's name, with the last write
winning on duplicate names. -/
theorem c6_drift_classification {α : Type} [DecidableEq α]
    (plan : PlanJson α) :
    ((∀ rc ∈ plan.resource_changes.getD [],
        rc.change.actions = ["no-op".toList] ∨
        rc.change.actions = ["read".toList]) →
      refresh_resources_drifts_properties plan = (false, [])) ∧
    (∀ rc ∈ plan.resource_changes.getD [],
      ¬(rc.change.actions = ["no-op".toList] ∨
        rc.change.actions = ["read".toList]) →
      (refresh_resources_drifts_properties plan).1 = true) ∧
    (∀ n, alookup (refresh_resources_drifts_properties plan).2 n =
      lastWrite (driftWrites (plan.resource_changes.getD [])) n) ∧
    (plan.resource_changes = none →
      refresh_resources_drifts_properties plan = (false, [])) := by
  have hfold := drift_fold (plan.resource_changes.getD []) false []
  refine ⟨?_, ?_, ?_, ?_⟩
  · intro hall
    rw [refresh_resources_drifts_properties, hfold]
    have hany : (plan.resource_changes.getD []).any (fun rc =>
        !(decide (rc.change.actions = ["no-op".toList] ∨
          rc.change.actions = ["read".toList]))) = false := by
      rw [List.any_eq_false]
      intro rc hrc
      rw [decide_eq_true (hall rc hrc)]
      simp
    have hfilter : driftWrites (plan.resource_changes.getD []) = [] := by
      rw [driftWrites]
      have hf : (plan.resource_changes.getD []).filter (fun rc =>
          !(decide (rc.change.actions = ["no-op".toList] ∨
            rc.change.actions = ["read".toList]))) = [] := by
        rw [List.filter_eq_nil_iff]
        intro rc hrc
        rw [decide_eq_true (hall rc hrc)]
        simp
      rw [hf]
      rfl
    rw [hany, hfilter]
    rfl
  · intro rc hrc hbad
    rw [refresh_resources_drifts_properties, hfold]
    have hany : (plan.resource_changes.getD []).any (fun rc =>
        !(decide (rc.change.actions = ["no-op".toList] ∨
          rc.change.actions = ["read".toList]))) = true :=
      List.any_eq_true.mpr ⟨rc, hrc, by rw [decide_eq_false hbad]; rfl⟩
    rw [hany]
    rfl
  · intro n
    rw [refresh_resources_drifts_properties, hfold]
    rw [alookup_writeAll]
    cases lastWrite (driftWrites (plan.resource_changes.getD [])) n with
    | some v => simp [Option.orElse]
    | none => simp [Option.orElse, alookup]
  · intro hnone
    rw [refresh_resources_drifts_properties, hnone]
    rfl

/-- Witness for C6: a no-op plan is not drift; an update is, keyed by
resource name. -/
theorem c6_drift_classification_witness :
    ((∀ rc ∈ (⟨some [⟨"vpc".toList, ⟨["no-op".toList], 0⟩⟩]⟩ :
        PlanJson Nat).resource_changes.getD [],
        rc.change.actions = ["no-op".toList] ∨
        rc.change.actions = ["read".toList]) ∧
      refresh_resources_drifts_properties
        (⟨some [⟨"vpc".toList, ⟨["no-op".toList], 0⟩⟩]⟩ : PlanJson Nat) =
        (false, [])) ∧
    ((⟨"vpc".toList, ⟨["update".toList], 0⟩⟩ : ResourceChange Nat) ∈
        (⟨some [⟨"vpc".toList, ⟨["update".toList], 0⟩⟩]⟩ :
          PlanJson Nat).resource_changes.getD [] ∧
      (refresh_resources_drifts_properties
        (⟨some [⟨"vpc".toList, ⟨["update".toList], 0⟩⟩]⟩ :
          PlanJson Nat)).1 = true) ∧
    alookup (refresh_resources_drifts_properties
      (⟨some [⟨"vpc".toList, ⟨["update".toList], 0⟩⟩]⟩ :
        PlanJson Nat)).2 "vpc".toList =
      lastWrite (driftWrites ((⟨some [⟨"vpc".toList,
        ⟨["update".toList], 0⟩⟩]⟩ :
          PlanJson Nat).resource_changes.getD [])) "vpc".toList ∧
    ((⟨none⟩ : PlanJson Nat).resource_changes = none ∧
      refresh_resources_drifts_properties (⟨none⟩ : PlanJson Nat) =
        (false, [])) :=
  ⟨⟨by decide, (c6_drift_classification
      (⟨some [⟨"vpc".toList, ⟨["no-op".toList], 0⟩⟩]⟩ : PlanJson Nat)).1
      (by decide)⟩,
   ⟨by decide, (c6_drift_classification
      (⟨some [⟨"vpc".toList, ⟨["update".toList], 0⟩⟩]⟩ : PlanJson Nat)).2.1
      (⟨"vpc".toList, ⟨["update".toList], 0⟩⟩ : ResourceChange Nat)
      (by decide) (by decide)⟩,
   (c6_drift_classification
      (⟨some [⟨"vpc".toList, ⟨["update".toList], 0⟩⟩]⟩ : PlanJson Nat)).2.2.1
      "vpc".toList,
   ⟨rfl, (c6_drift_classification (⟨none⟩ : PlanJson Nat)).2.2.2 rfl⟩⟩

/-- The nested module fold is the fold of the concatenated writes. -/
theorem modules_fold_eq {α : Type} [DecidableEq α] :
    ∀ (ms : List (ModuleJson α)) (init : List (Path × StateResource α)),
      ms.foldl (fun acc m => (m.resources.getD []).foldl
        (fun acc2 nv => upsert acc2 nv.1 nv.2) acc) init =
      writeAll init (ms.foldr (fun m acc => m.resources.getD [] ++ acc) []) := by
  intro ms
  induction ms with
  | nil =>
    intro init
    simp [writeAll]
  | cons m t ih =>
    intro init
    rw [List.foldl_cons, List.foldr_cons, writeAll_append, ih]
    rfl

/-- The whole inventory projection is the fold of its write sequence. -/
theorem refresh_resources_eq_writeAll {α : Type} [DecidableEq α]
    (state : StateJson α) :
    refresh_resources_properties state =
      writeAll [] (inventoryWrites state) := by
  rw [refresh_resources_properties, inventoryWrites, writeAll_append,
    modules_fold_eq]
  have htop : (state.resources.getD []).foldl
      (fun acc r => upsert acc r.name r) [] =
      writeAll [] ((state.resources.getD []).map fun r => (r.name, r)) := by
    rw [writeAll, List.foldl_map]
  rw [htop]

/-- C7: inventory projection produces one flat mapping holding every
top-level resource keyed by its name and every nested module resource,
with later writes overwriting earlier ones on name collision (so module
entries can overwrite top-level entries) and no collision error; missing
`resources` and `modules` keys degrade to the empty mapping. -/
theorem c7_inventory_flattening {α : Type} [DecidableEq α]
    (state : StateJson α) :
    (∀ n, alookup (refresh_resources_properties state) n =
      lastWrite (inventoryWrites state) n) ∧
    (∀ n, n ∈ (inventoryWrites state).map Prod.fst →
      (alookup (refresh_resources_properties state) n).isSome = true) ∧
    (state.resources = none → state.modules = none →
      refresh_resources_properties state = []) := by
  refine ⟨?_, ?_, ?_⟩
  · intro n
    rw [refresh_resources_eq_writeAll, alookup_writeAll]
    cases lastWrite (inventoryWrites state) n with
    | some v => simp [Option.orElse]
    | none => simp [Option.orElse, alookup]
  · intro n hn
    rw [refresh_resources_eq_writeAll, alookup_writeAll]
    have := lastWrite_isSome_of_mem (inventoryWrites state) n hn
    cases hlast : lastWrite (inventoryWrites state) n with
    | some v => simp [Option.orElse]
    | none =>
      rw [hlast] at this
      simp at this
  · intro hr hm
    rw [refresh_resources_properties, hr, hm]
    rfl

/-- Witness for C7: a state whose module entry overwrites the top-level
entry of the same name. -/
theorem c7_inventory_flattening_witness :
    (∀ n, alookup (refresh_resources_properties ((StateJson.mk
        (some [⟨"a".toList, 1⟩])
        (some [⟨some [("a".toList, ⟨"a".toList, 2⟩)]⟩])) : StateJson Nat)) n =
      lastWrite (inventoryWrites ((StateJson.mk
        (some [⟨"a".toList, 1⟩])
        (some [⟨some [("a".toList, ⟨"a".toList, 2⟩)]⟩])) : StateJson Nat)) n) ∧
    ("a".toList ∈ (inventoryWrites ((StateJson.mk
        (some [⟨"a".toList, 1⟩])
        (some [⟨some [("a".toList, ⟨"a".toList, 2⟩)]⟩])) : StateJson Nat)).map Prod.fst ∧
      (alookup (refresh_resources_properties ((StateJson.mk
        (some [⟨"a".toList, 1⟩])
        (some [⟨some [("a".toList, ⟨"a".toList, 2⟩)]⟩])) : StateJson Nat)) "a".toList).isSome
        = true) ∧
    (((StateJson.mk none none) : StateJson Nat).resources = none ∧
      ((StateJson.mk none none) : StateJson Nat).modules = none ∧
      refresh_resources_properties ((StateJson.mk none none) : StateJson Nat) = []) :=
  ⟨(c7_inventory_flattening _).1,
   ⟨by decide, (c7_inventory_flattening _).2.1 _ (by decide)⟩,
   ⟨rfl, rfl, (c7_inventory_flattening _).2.2 rfl rfl⟩⟩

/-! ### Process-runner lemmas -/

/-- Masking changes only the values of redacted keys. -/
theorem alookup_maskEnv (e : Env) (k : Path) :
    alookup (maskEnv e) k = (alookup e k).map
      (fun v => if k ∈ MASKED_ENV_VARS then "****".toList else v) := by
  induction e with
  | nil => rfl
  | cons kv t ih =>
    obtain ⟨k2, v2⟩ := kv
    by_cases hmask : k2 ∈ MASKED_ENV_VARS
    · rw [maskEnv, if_pos hmask]
      by_cases hk : k2 = k
      · subst hk
        rw [alookup, alookup, if_pos rfl, if_pos rfl]
        simp [hmask]
      · rw [alookup, alookup, if_neg hk, if_neg hk, ih]
    · rw [maskEnv, if_neg hmask]
      by_cases hk : k2 = k
      · subst hk
        rw [alookup, alookup, if_pos rfl, if_pos rfl]
        simp [hmask]
      · rw [alookup, alookup, if_neg hk, if_neg hk, ih]

/-- C9: when `run_subprocess` is called with an additional environment,
the env dict handed to `Popen` merges the additional environment over
`os.environ` over any incoming `additional_args` env (later source
wins per key); the logged copy shows `****` for every key of the fixed
redaction set while non-redacted keys are logged unchanged; and the
ambient `os.environ` is not mutated. -/
theorem c9_env_redaction (osEnviron aenv : Env) (argsEnv : Option Env) :
    (run_subprocess osEnviron (some aenv) argsEnv).osEnvironAfter =
      osEnviron ∧
    (∃ p, (run_subprocess osEnviron (some aenv) argsEnv).passedEnv =
        some p ∧
      (run_subprocess osEnviron (some aenv) argsEnv).printedEnv =
        some (maskEnv p) ∧
      (∀ k, alookup p k = ((lastWrite aenv k).orElse fun _ =>
        (lastWrite osEnviron k).orElse fun _ =>
          alookup (argsEnv.getD []) k)) ∧
      (∀ k, k ∈ MASKED_ENV_VARS → ∀ v, alookup p k = some v →
        alookup (maskEnv p) k = some "****".toList) ∧
      (∀ k, k ∉ MASKED_ENV_VARS →
        alookup (maskEnv p) k = alookup p k)) := by
  refine ⟨rfl, writeAll (writeAll (argsEnv.getD []) osEnviron) aenv,
    rfl, rfl, ?_, ?_, ?_⟩
  · intro k
    rw [alookup_writeAll, alookup_writeAll]
  · intro k hk v hv
    rw [alookup_maskEnv, hv]
    simp [hk]
  · intro k hk
    rw [alookup_maskEnv]
    cases alookup (writeAll (writeAll (argsEnv.getD []) osEnviron) aenv) k
      with
    | none => simp
    | some v => simp [hk]

/-- Witness for C9: a call with an AWS secret in the additional
environment. -/
theorem c9_env_redaction_witness :
    ((run_subprocess [("PATH".toList, "/bin".toList)]
        (some [("AWS_ACCESS_KEY_ID".toList, "hunter2".toList)])
        none).osEnvironAfter = [("PATH".toList, "/bin".toList)] ∧
      ∃ p, (run_subprocess [("PATH".toList, "/bin".toList)]
          (some [("AWS_ACCESS_KEY_ID".toList, "hunter2".toList)])
          none).passedEnv = some p ∧
        (run_subprocess [("PATH".toList, "/bin".toList)]
          (some [("AWS_ACCESS_KEY_ID".toList, "hunter2".toList)])
          none).printedEnv = some (maskEnv p) ∧
        (∀ k, alookup p k =
          ((lastWrite [("AWS_ACCESS_KEY_ID".toList, "hunter2".toList)] k).orElse
            fun _ =>
            (lastWrite [("PATH".toList, "/bin".toList)] k).orElse fun _ =>
              alookup ((none : Option Env).getD []) k)) ∧
        (∀ k, k ∈ MASKED_ENV_VARS → ∀ v, alookup p k = some v →
          alookup (maskEnv p) k = some "****".toList) ∧
        (∀ k, k ∉ MASKED_ENV_VARS →
          alookup (maskEnv p) k = alookup p k)) :=
  c9_env_redaction [("PATH".toList, "/bin".toList)]
    [("AWS_ACCESS_KEY_ID".toList, "hunter2".toList)] none

/-! ### Installation lemmas -/

theorem extractAllInto_eq_writeAll (a : Archive) (t : Path)
    (fs : FileMap) :
    extractAllInto a t fs =
      writeAll fs (a.map fun e => (pjoin t e.1, e.2)) := by
  rw [extractAllInto, writeAll, List.foldl_map]

theorem alookup_extractAllInto_untouched (a : Archive) (t : Path)
    (fs : FileMap) (k : Path) (hk : ∀ e ∈ a, k ≠ pjoin t e.1) :
    alookup (extractAllInto a t fs) k = alookup fs k := by
  have hnot : k ∉ (a.map fun e => (pjoin t e.1, e.2)).map Prod.fst := by
    intro hmem
    rw [List.map_map] at hmem
    obtain ⟨e, he, hke⟩ := List.mem_map.mp hmem
    exact hk e he hke.symm
  rw [extractAllInto_eq_writeAll, alookup_writeAll,
    lastWrite_eq_none _ _ hnot]
  rfl

theorem alookup_upsert_isSome {α β : Type} [DecidableEq α]
    (m : List (α × β)) (k k2 : α) (v : β)
    (h : (alookup m k).isSome = true) :
    (alookup (upsert m k2 v) k).isSome = true := by
  by_cases hk : k2 = k
  · subst hk
    rw [alookup_upsert_self]
    rfl
  · rw [alookup_upsert_ne m k2 k v (fun e => hk e.symm)]
    exact h

theorem alookup_writeAll_isSome {α β : Type} [DecidableEq α]
    (init ws : List (α × β)) (k : α)
    (h : (alookup init k).isSome = true) :
    (alookup (writeAll init ws) k).isSome = true := by
  rw [alookup_writeAll]
  cases lastWrite ws k with
  | some v => rfl
  | none => exact h

theorem alookup_writeAll_isSome_of_mem {α β : Type} [DecidableEq α]
    (init ws : List (α × β)) (k : α) (h : k ∈ ws.map Prod.fst) :
    (alookup (writeAll init ws) k).isSome = true := by
  rw [alookup_writeAll]
  have := lastWrite_isSome_of_mem ws k h
  cases hlast : lastWrite ws k with
  | some v => rfl
  | none =>
    rw [hlast] at this
    simp at this

/-- An untouched key looks through one plugin-loop iteration. -/
theorem handlePluginStep_untouched (fetch : Path → Archive)
    (plugins_dir installation_dir : Path) (acc : FileMap)
    (ip : Nat × (Path × Path)) (k : Path)
    (h1 : k ≠ pluginTempPath installation_dir ip.1)
    (h2 : ∀ e ∈ fetch ip.2.2, k ≠ pjoin (pjoin plugins_dir ip.2.1) e.1) :
    alookup (handlePluginStep fetch plugins_dir installation_dir acc ip) k =
      alookup acc k := by
  rw [handlePluginStep, alookup_aerase, if_neg h1,
    alookup_extractAllInto_untouched _ _ _ _ h2,
    alookup_upsert_ne _ _ _ _ h1]

/-- A key distinct from the temporary zip keeps existing through one
plugin-loop iteration. -/
theorem handlePluginStep_isSome (fetch : Path → Archive)
    (plugins_dir installation_dir : Path) (acc : FileMap)
    (ip : Nat × (Path × Path)) (k : Path)
    (h1 : k ≠ pluginTempPath installation_dir ip.1)
    (h : (alookup acc k).isSome = true) :
    (alookup
      (handlePluginStep fetch plugins_dir installation_dir acc ip) k).isSome
      = true := by
  rw [handlePluginStep, alookup_aerase, if_neg h1,
    extractAllInto_eq_writeAll]
  exact alookup_writeAll_isSome _ _ _ (alookup_upsert_isSome _ _ _ _ h)

/-- Unpacking the untouched-path list. -/
theorem pluginTouchedOf_elim (fetch : Path → Archive)
    (plugins_dir installation_dir : Path) (k : Path) :
    ∀ (l : List (Nat × (Path × Path))),
      k ∉ pluginTouchedOf fetch plugins_dir installation_dir l →
      ∀ ip ∈ l, k ≠ pluginTempPath installation_dir ip.1 ∧
        ∀ e ∈ fetch ip.2.2, k ≠ pjoin (pjoin plugins_dir ip.2.1) e.1 := by
  intro l
  induction l with
  | nil =>
    intro _ ip hip
    simp at hip
  | cons a t ih =>
    intro hk ip hip
    rw [pluginTouchedOf] at hk
    have hk1 : k ≠ pluginTempPath installation_dir a.1 := by
      intro e
      exact hk (by rw [e]; exact List.mem_cons_self _ _)
    have hk2 : ∀ e ∈ fetch a.2.2,
        k ≠ pjoin (pjoin plugins_dir a.2.1) e.1 := by
      intro e he hke
      refine hk (List.mem_cons_of_mem _ (List.mem_append.mpr (Or.inl ?_)))
      rw [hke]
      exact List.mem_map_of_mem _ he
    have hk3 : k ∉ pluginTouchedOf fetch plugins_dir installation_dir t := by
      intro hmem
      exact hk (List.mem_cons_of_mem _ (List.mem_append.mpr (Or.inr hmem)))
    rcases List.mem_cons.mp hip with h1 | h1
    · subst h1
      exact ⟨hk1, hk2⟩
    · exact ih hk3 ip h1

/-- The plugin loop never disturbs a path it does not touch. -/
theorem plugins_fold_untouched (fetch : Path → Archive)
    (plugins_dir installation_dir : Path) (k : Path) :
    ∀ (l : List (Nat × (Path × Path))) (fs : FileMap),
      (∀ ip ∈ l, k ≠ pluginTempPath installation_dir ip.1 ∧
        ∀ e ∈ fetch ip.2.2, k ≠ pjoin (pjoin plugins_dir ip.2.1) e.1) →
      alookup (l.foldl (handlePluginStep fetch plugins_dir
        installation_dir) fs) k = alookup fs k := by
  intro l
  induction l with
  | nil =>
    intro fs _
    rfl
  | cons a t ih =>
    intro fs hcond
    rw [List.foldl_cons,
      ih _ (fun ip hip => hcond ip (List.mem_cons_of_mem _ hip)),
      handlePluginStep_untouched _ _ _ _ _ _
        (hcond a (List.mem_cons_self _ _)).1
        (hcond a (List.mem_cons_self _ _)).2]

/-- `handle_plugins` never disturbs a path it does not touch. -/
theorem handle_plugins_untouched (fetch : Path → Archive) (fs : FileMap)
    (plugins : List (Path × Path)) (plugins_dir installation_dir : Path)
    (k : Path)
    (hk : k ∉ pluginTouchedPaths fetch plugins plugins_dir
      installation_dir) :
    alookup (handle_plugins fetch fs plugins plugins_dir installation_dir)
      k = alookup fs k := by
  rw [handle_plugins]
  exact plugins_fold_untouched fetch plugins_dir installation_dir k
    plugins.enum fs
    (pluginTouchedOf_elim fetch plugins_dir installation_dir k
      plugins.enum hk)

/-- A key distinct from every temporary zip keeps existing through the
plugin loop. -/
theorem plugins_fold_isSome (fetch : Path → Archive)
    (plugins_dir installation_dir : Path) (k : Path) :
    ∀ (l : List (Nat × (Path × Path))) (fs : FileMap),
      (∀ ip ∈ l, k ≠ pluginTempPath installation_dir ip.1) →
      (alookup fs k).isSome = true →
      (alookup (l.foldl (handlePluginStep fetch plugins_dir
        installation_dir) fs) k).isSome = true := by
  intro l
  induction l with
  | nil =>
    intro fs _ h
    exact h
  | cons a t ih =>
    intro fs htmp h
    rw [List.foldl_cons]
    exact ih _ (fun ip hip => htmp ip (List.mem_cons_of_mem _ hip))
      (handlePluginStep_isSome _ _ _ _ _ _
        (htmp a (List.mem_cons_self _ _)) h)

/-- A path that is not a temporary zip keeps existing through
`handle_plugins`. -/
theorem handle_plugins_isSome (fetch : Path → Archive) (fs : FileMap)
    (plugins : List (Path × Path)) (plugins_dir installation_dir : Path)
    (k : Path)
    (htmp : ∀ ip ∈ plugins.enum, k ≠ pluginTempPath installation_dir ip.1)
    (h : (alookup fs k).isSome = true) :
    (alookup (handle_plugins fetch fs plugins plugins_dir
      installation_dir) k).isSome = true := by
  rw [handle_plugins]
  exact plugins_fold_isSome fetch plugins_dir installation_dir k
    plugins.enum fs htmp h

/-- The executable path exists after `install_binary` whenever the
downloaded archive carries it and the temporary zip path is distinct. -/
theorem install_binary_creates (fetch : Path → Archive) (fs : FileMap)
    (installation_dir executable_path : Path) (src : Path)
    (hzip : executable_path ≠ pjoin installation_dir "tf.zip".toList)
    (hfetch : executable_path ∈ (fetch src).map
      (fun e => pjoin (dirnameOf executable_path) e.1)) :
    (alookup (install_binary fetch fs installation_dir executable_path
      (some src)).1 executable_path).isSome = true := by
  rw [install_binary]
  rw [alookup_aerase, if_neg hzip, extractAllInto_eq_writeAll]
  refine alookup_writeAll_isSome_of_mem _ _ _ ?_
  rw [List.map_map]
  have : (Prod.fst ∘ fun e : Path × Bytes =>
      (pjoin (dirnameOf executable_path) e.1, e.2)) =
      (fun e : Path × Bytes => pjoin (dirnameOf executable_path) e.1) := rfl
  rw [this]
  exact hfetch

/-- The `install` operation always stores the resolved executable path
in the runtime properties. -/
theorem install_stores_prop (fetch fetchPlugin : Path → Archive)
    (fs : FileMap) (installation_dir executable_path plugins_dir
      installation_source : Path) (plugins : List (Path × Path)) :
    (install fetch fetchPlugin fs installation_dir executable_path
      plugins_dir installation_source plugins).executablePathProp =
      some executable_path := by
  rw [install]
  by_cases h : (alookup fs executable_path).isSome = true
  · rw [if_pos h]
  · rw [if_neg h]

/-- C8: when a file already exists at the resolved executable path, the
install operation performs zero download attempts for the executable,
leaves the file at the executable path unchanged, and still stores the
executable path in the runtime properties; and calling install twice
downloads the executable at most once. -/
theorem c8_idempotent_install (fetch fetchPlugin : Path → Archive)
    (fs : FileMap)
    (installation_dir executable_path plugins_dir installation_source :
      Path)
    (plugins : List (Path × Path))
    (hplug : executable_path ∉ pluginTouchedPaths fetchPlugin plugins
      plugins_dir installation_dir)
    (hzip : executable_path ≠ pjoin installation_dir "tf.zip".toList)
    (hfetch : executable_path ∈ (fetch installation_source).map
      (fun e => pjoin (dirnameOf executable_path) e.1)) :
    (∀ content, alookup fs executable_path = some content →
      (install fetch fetchPlugin fs installation_dir executable_path
        plugins_dir installation_source plugins).exeDownloads = 0 ∧
      alookup (install fetch fetchPlugin fs installation_dir
        executable_path plugins_dir installation_source plugins).fs
        executable_path = some content ∧
      (install fetch fetchPlugin fs installation_dir executable_path
        plugins_dir installation_source plugins).executablePathProp =
        some executable_path) ∧
    ((install fetch fetchPlugin fs installation_dir executable_path
        plugins_dir installation_source plugins).exeDownloads +
      (install fetch fetchPlugin
        (install fetch fetchPlugin fs installation_dir executable_path
          plugins_dir installation_source plugins).fs
        installation_dir executable_path plugins_dir installation_source
        plugins).exeDownloads ≤ 1) ∧
    (install fetch fetchPlugin
      (install fetch fetchPlugin fs installation_dir executable_path
        plugins_dir installation_source plugins).fs
      installation_dir executable_path plugins_dir installation_source
      plugins).executablePathProp = some executable_path := by
  have htmp : ∀ ip ∈ plugins.enum,
      executable_path ≠ pluginTempPath installation_dir ip.1 :=
    fun ip hip => (pluginTouchedOf_elim fetchPlugin plugins_dir
      installation_dir executable_path plugins.enum hplug ip hip).1
  have hfirst_some : ∀ fs2 : FileMap,
      (alookup fs2 executable_path).isSome = true →
      (alookup (install fetch fetchPlugin fs2 installation_dir
        executable_path plugins_dir installation_source
        plugins).fs executable_path).isSome = true := by
    intro fs2 h
    rw [install, if_pos h]
    exact handle_plugins_isSome _ _ _ _ _ _ htmp h
  refine ⟨?_, ?_, ?_⟩
  · intro content hcontent
    have hsome : (alookup fs executable_path).isSome = true := by
      rw [hcontent]
      rfl
    refine ⟨by rw [install, if_pos hsome], ?_,
      install_stores_prop fetch fetchPlugin fs installation_dir
        executable_path plugins_dir installation_source plugins⟩
    rw [install, if_pos hsome]
    rw [handle_plugins_untouched _ _ _ _ _ _ hplug]
    exact hcontent
  · by_cases hsome : (alookup fs executable_path).isSome = true
    · have h1 : (install fetch fetchPlugin fs installation_dir
          executable_path plugins_dir installation_source
          plugins).exeDownloads = 0 := by
        rw [install, if_pos hsome]
      have h2 : (install fetch fetchPlugin
          (install fetch fetchPlugin fs installation_dir executable_path
            plugins_dir installation_source plugins).fs
          installation_dir executable_path plugins_dir
          installation_source plugins).exeDownloads = 0 := by
        rw [install, if_pos (hfirst_some fs hsome)]
      rw [h1, h2]
      omega
    · have hafter : (alookup (install fetch fetchPlugin fs
          installation_dir executable_path plugins_dir
          installation_source plugins).fs executable_path).isSome =
          true := by
        rw [install, if_neg hsome]
        exact handle_plugins_isSome _ _ _ _ _ _ htmp
          (install_binary_creates fetch fs installation_dir
            executable_path installation_source hzip hfetch)
      have h2 : (install fetch fetchPlugin
          (install fetch fetchPlugin fs installation_dir executable_path
            plugins_dir installation_source plugins).fs
          installation_dir executable_path plugins_dir
          installation_source plugins).exeDownloads = 0 := by
        rw [install, if_pos hafter]
      have h1 : (install fetch fetchPlugin fs installation_dir
          executable_path plugins_dir installation_source
          plugins).exeDownloads = 1 := by
        rw [install, if_neg hsome]
        rfl
      rw [h1, h2]
  · exact install_stores_prop fetch fetchPlugin _ installation_dir
      executable_path plugins_dir installation_source plugins

/-- Concrete download source serving the terraform binary, for the C8
witness. -/
def fetchW : Path → Archive := fun _ => [("terraform".toList, [9])]

/-- Concrete plugin source (no plugins), for the C8 witness. -/
def fetchPW : Path → Archive := fun _ => []

/-- Concrete filesystem with the executable already installed. -/
def fsW : FileMap := [("r/terraform".toList, [9])]

/-- Witness for C8 at the concrete layout. -/
theorem c8_idempotent_install_witness :
    ("r/terraform".toList ∉ pluginTouchedPaths fetchPW
        ([] : List (Path × Path)) "r/.terraform/plugins".toList
        "r".toList ∧
      "r/terraform".toList ≠ pjoin "r".toList "tf.zip".toList ∧
      "r/terraform".toList ∈ (fetchW "u".toList).map
        (fun e => pjoin (dirnameOf "r/terraform".toList) e.1)) ∧
    ((∀ content, alookup fsW "r/terraform".toList = some content →
      (install fetchW fetchPW fsW "r".toList "r/terraform".toList
        "r/.terraform/plugins".toList "u".toList []).exeDownloads = 0 ∧
      alookup (install fetchW fetchPW fsW "r".toList "r/terraform".toList
        "r/.terraform/plugins".toList "u".toList []).fs
        "r/terraform".toList = some content ∧
      (install fetchW fetchPW fsW "r".toList "r/terraform".toList
        "r/.terraform/plugins".toList "u".toList []).executablePathProp =
        some "r/terraform".toList) ∧
    ((install fetchW fetchPW fsW "r".toList "r/terraform".toList
        "r/.terraform/plugins".toList "u".toList []).exeDownloads +
      (install fetchW fetchPW
        (install fetchW fetchPW fsW "r".toList "r/terraform".toList
          "r/.terraform/plugins".toList "u".toList []).fs
        "r".toList "r/terraform".toList "r/.terraform/plugins".toList
        "u".toList []).exeDownloads ≤ 1) ∧
    (install fetchW fetchPW
      (install fetchW fetchPW fsW "r".toList "r/terraform".toList
        "r/.terraform/plugins".toList "u".toList []).fs
      "r".toList "r/terraform".toList "r/.terraform/plugins".toList
      "u".toList []).executablePathProp = some "r/terraform".toList) :=
  ⟨⟨by decide, by decide, by decide⟩,
   c8_idempotent_install fetchW fetchPW fsW "r".toList
     "r/terraform".toList "r/.terraform/plugins".toList "u".toList []
     (by decide) (by decide) (by decide)⟩

/-! ### Scoped checkout commit-on-failure -/

/-- C1: once a scoped checkout (the `contextmanager` around
`_yield_terraform_source`, used by both `get_terraform_source` and
`update_terraform_source`) has acquired and the caller's body raises,
the release step still runs: the storage directory in the state the
body left it is re-packed excluding the resolved executable path and
plugins directory, the archive bytes are transcoded to base64 text and
stored as the persisted bundle text together with the resource-config
snapshot, and the body's original exception propagates as the
operation's outcome. -/
theorem c1_commit_on_failure {ρ ε : Type} (env : ScopedEnv ρ)
    (st0 : OpState ρ) (material : Archive)
    (body : OpState ρ → OpState ρ × Option ε) (st1 st2 : OpState ρ)
    (err : ε)
    (hacq : acquireSource env st0 material = Except.ok st1)
    (hbody : body st1 = (st2, some err)) :
    yield_terraform_source env st0 material body =
      Except.ok ({ st2 with
        terraformSource := some (file_to_base64 (serializeArchive
          (zip_archive env.isfile env.isdir env.moduleRoot st2.workTree
            [some env.executablePath, some env.pluginsDir])))
        resourceConfigProp := some env.resourceConfig }, some err) := by
  rw [yield_terraform_source, hacq]
  show Except.ok (releaseSource env (body st1).1, (body st1).2) = _
  rw [hbody]
  rfl

/-- Scoped-checkout environment for the C1 witness, with a declared
backend. -/
def envW1 : ScopedEnv Nat :=
  { moduleRoot := "r".toList
    executablePath := "r/terraform".toList
    pluginsDir := "r/.terraform/plugins".toList
    sourcePath := some "zz".toList
    resourceConfig := 5
    backendFile := some ("s3.tf".toList, [10])
    isfile := isfileW
    isdir := isdirW }

/-- Initial state for the C1 witness: empty storage directory, nothing
persisted. -/
def stW0 : OpState Nat := { workTree := Dir.mk [] Forest.nil
                            terraformSource := none
                            resourceConfigProp := none }

/-- Bundle material for the C1 witness. -/
def materialW : Archive := [("main.tf".toList, [1, 2])]

/-- State after acquire for the C1 witness: backend file plus the
extracted bundle entry. -/
def stW1 : OpState Nat :=
  { workTree := (Dir.mk [("s3.tf".toList, [10]),
      ("main.tf".toList, [1, 2])] Forest.nil)
    terraformSource := none
    resourceConfigProp := none }

/-- Failing body for the C1 witness: it rewrites the working directory
(a partial apply left a state file) and raises. -/
def bodyW (st : OpState Nat) : OpState Nat × Option Nat :=
  ({ st with workTree :=
      (Dir.mk [("terraform.tfstate".toList, [3])] Forest.nil) }, some 7)

/-- State the body leaves behind in the C1 witness. -/
def stW2 : OpState Nat :=
  { workTree := (Dir.mk [("terraform.tfstate".toList, [3])] Forest.nil)
    terraformSource := none
    resourceConfigProp := none }

/-- Witness for C1 at the concrete scoped checkout. -/
theorem c1_commit_on_failure_witness :
    (acquireSource envW1 stW0 materialW = Except.ok stW1 ∧
      bodyW stW1 = (stW2, some 7)) ∧
    yield_terraform_source envW1 stW0 materialW bodyW =
      Except.ok ({ stW2 with
        terraformSource := some (file_to_base64 (serializeArchive
          (zip_archive envW1.isfile envW1.isdir envW1.moduleRoot
            stW2.workTree
            [some envW1.executablePath, some envW1.pluginsDir])))
        resourceConfigProp := some envW1.resourceConfig }, some 7) :=
  ⟨⟨by rfl, by rfl⟩,
   c1_commit_on_failure envW1 stW0 materialW bodyW stW1 stW2 7 (by rfl)
     (by rfl)⟩

end CloudifyTf

